import Mathlib

/-!
# Verification of the PartySlate segment-stream decoder

Shallow embedding of the decoding core of the repository:

* `src/core/partyslate/models.py` — `get_next_hex_string`,
  `get_next_data_type_string`, `LenientJSONDecoder.get_obj_length`;
* `src/core/partyslate/parser.py` — the frame-decoding loop of
  `merge_next_f_scripts` (lines 52–110), acting on the combined buffer;
* `src/core/partyslate/client.py` — `extract_data_from_scripts` and the
  three index helpers.

Python strings are modelled as `List Char`; Python's `json` module is
modelled by an executable scanner/parser faithful to `json.raw_decode`
(strict strings, the `NUMBER_RE` regex, `NaN`/`Infinity`/`-Infinity`
constants, whitespace `[ \t\n\r]`).  Exceptions are modelled by
`Option`/`Except`.
-/

set_option maxRecDepth 40000

namespace PartySlate

/-! ## Basic string utilities (Python `str` operations) -/

/-- First index at which `needle` occurs as a contiguous substring of `hay`
(Python `str.find`, with `none` for `-1`).  The empty needle occurs at 0. -/
def findSubstr (needle : List Char) : List Char → Option Nat
  | [] => if needle.isPrefixOf [] then some 0 else none
  | c :: rest =>
    if needle.isPrefixOf (c :: rest) then some 0
    else (findSubstr needle rest).map (· + 1)

/-- Python `needle in hay`. -/
def occursIn (needle hay : List Char) : Bool := (findSubstr needle hay).isSome

/-- Python `s.split(needle, 1)[1]`: everything after the first occurrence of
`needle`.  Unreachable `none` case (the decoder only calls this when the
needle is known to occur) yields `[]`. -/
def splitOnceAfter (needle s : List Char) : List Char :=
  match findSubstr needle s with
  | some i => s.drop (i + needle.length)
  | none => []

/-- Python `s.split(needle, 1)[1][1:]`. -/
def splitOnceAfter1 (needle s : List Char) : List Char :=
  (splitOnceAfter needle s).drop 1

/-! ## `models.py`: hex runs and type tags -/

/-- Characters accepted by `get_next_hex_string` (`"0123456789abcdef"`). -/
def isHexLower (c : Char) : Bool := c.isDigit || ('a' ≤ c && c ≤ 'f')

/-- `models.get_next_hex_string`: maximal leading run of lowercase
hexadecimal digits. -/
def get_next_hex_string (s : List Char) : List Char := s.takeWhile isHexLower

/-- The JSON-start characters on which `get_next_data_type_string` stops
(`'"{[n'`). -/
def isTagStop (c : Char) : Bool := c = '"' || c = '\x7b' || c = '[' || c = 'n'

/-- A character the tag scanner collects: neither a stop character nor
`'T'`. -/
def isTagChar (c : Char) : Bool := !isTagStop c && c ≠ 'T'

/-- `models.get_next_data_type_string`: scan forward; a `'T'` seen anywhere
before a stop character yields `"T"` (discarding the characters collected so
far), a stop character ends the scan, any other character is collected.  A
collected run never contains `'T'`, so propagating `['T']` through the
recursion is unambiguous. -/
def get_next_data_type_string : List Char → List Char
  | [] => []
  | c :: rest =>
    if c = 'T' then ['T']
    else if isTagStop c then []
    else
      let r := get_next_data_type_string rest
      if r = ['T'] then ['T'] else c :: r

/-- Value of one lowercase hex digit. -/
def hexDigitVal (c : Char) : Nat :=
  if c.isDigit then c.toNat - 48 else c.toNat - 87

/-- Python `int(s, 16)` on a lowercase hex string. -/
def hexToNat (s : List Char) : Nat := s.foldl (fun a c => 16 * a + hexDigitVal c) 0

/-! ## Python `json`: values -/

/-- A parsed JSON value.  Numbers keep their source lexeme (no claim in this
development compares numeric magnitudes); object members are an
insertion-ordered association list with Python-`dict` update semantics. -/
inductive Json where
  | null : Json
  | bool (b : Bool) : Json
  | num (lexeme : List Char) : Json
  | str (s : List Char) : Json
  | arr (items : List Json) : Json
  | obj (members : List (List Char × Json)) : Json
  deriving Repr

/-- Python-`dict` insertion: an existing key keeps its position and gets the
new value, a new key is appended. -/
def dictInsert (d : List (List Char × Json)) (k : List Char) (v : Json) :
    List (List Char × Json) :=
  match d with
  | [] => [(k, v)]
  | (k0, v0) :: rest =>
    if k0 = k then (k0, v) :: rest else (k0, v0) :: dictInsert rest k v

/-- Build a dict from a pair list, later duplicates overriding. -/
def pairsToDict (ps : List (List Char × Json)) : List (List Char × Json) :=
  ps.foldl (fun d p => dictInsert d p.1 p.2) []

/-- Association-list lookup (Python `dict.get`). -/
def dictGet (d : List (List Char × Json)) (k : List Char) : Option Json :=
  (d.find? (fun p => p.1 = k)).map (·.2)

/-- Mantissa of a number lexeme: everything before the exponent marker. -/
def numMantissa (l : List Char) : List Char :=
  l.takeWhile (fun c => c ≠ 'e' && c ≠ 'E')

/-- Whether a number lexeme denotes zero: its mantissa contains at least one
digit and no digit `1`–`9` (so `NaN`/`Infinity` lexemes are nonzero). -/
def numLexemeZero (l : List Char) : Bool :=
  (numMantissa l).any Char.isDigit &&
    !((numMantissa l).any (fun c => '1' ≤ c && c ≤ '9'))

/-- Python truthiness of a parsed JSON value. -/
def jsonTruthy : Json → Bool
  | .null => false
  | .bool b => b
  | .num l => !numLexemeZero l
  | .str s => !s.isEmpty
  | .arr l => !l.isEmpty
  | .obj m => !m.isEmpty

/-! ## Python `json`: scanner (faithful to `json.raw_decode`) -/

/-- JSON whitespace, the `[ \t\n\r]` of `json.decoder.WHITESPACE`. -/
def isJsonWs (c : Char) : Bool := c = ' ' || c = '\t' || c = '\n' || c = '\r'

/-- `WHITESPACE.match(s, i).end()` as a drop of the leading whitespace run. -/
def skipWs (s : List Char) : List Char := s.dropWhile isJsonWs

/-- Hex digit of either case (the `[0-9a-fA-F]` of `\uXXXX` escapes). -/
def isHexAny (c : Char) : Bool :=
  c.isDigit || ('a' ≤ c && c ≤ 'f') || ('A' ≤ c && c ≤ 'F')

/-- Value of a hex digit of either case. -/
def hexAnyVal (c : Char) : Nat :=
  if c.isDigit then c.toNat - 48
  else if 'a' ≤ c then c.toNat - 87 else c.toNat - 55

/-- Code unit of a `\uXXXX` escape. -/
def hex4Val (a b c d : Char) : Nat :=
  ((hexAnyVal a * 16 + hexAnyVal b) * 16 + hexAnyVal c) * 16 + hexAnyVal d

/-- A code point as a `Char`; lone surrogates (which Python keeps as such)
fall back to `Char.ofNat`'s default — no input in this development contains
them. -/
def charOfCodePoint (n : Nat) : Char := Char.ofNat n

/-- Single-character escapes of `json.decoder.BACKSLASH`. -/
def escMap (c : Char) : Option Char :=
  if c = '"' then some '"'
  else if c = '\\' then some '\\'
  else if c = '/' then some '/'
  else if c = 'b' then some '\x08'
  else if c = 'f' then some '\x0c'
  else if c = 'n' then some '\n'
  else if c = 'r' then some '\r'
  else if c = 't' then some '\t'
  else none

/-- The continuation of a high surrogate `\uXXXX` escape whose following
two characters are `\u` (`s[end:end+2] == '\u'`): the third argument is
`rest3.drop 2`, the four hex digits of the second escape.  Invalid hex
digits fail (`_decode_uXXXX` raises); a non-low-surrogate value emits the
lone high surrogate and re-scans from `rest3`. -/
def unescapePairAt (u : Nat) (rest3 : List Char) :
    List Char → Option (List Char × List Char)
  | a2 :: b2 :: c3 :: d2 :: rest4 =>
    if isHexAny a2 && isHexAny b2 && isHexAny c3 && isHexAny d2 then
      let u2 := hex4Val a2 b2 c3 d2
      if 0xdc00 ≤ u2 ∧ u2 ≤ 0xdfff then
        some ([charOfCodePoint
          (0x10000 + (u - 0xd800) * 0x400 + (u2 - 0xdc00))], rest4)
      else some ([charOfCodePoint u], rest3)
    else none
  | _ => none

/-- The body of a `\uXXXX` escape: four hex digits and the surrogate-pair
logic. -/
def unescapeU4 (a b c2 d : Char) (rest3 : List Char) :
    Option (List Char × List Char) :=
  if isHexAny a && isHexAny b && isHexAny c2 && isHexAny d then
    let u := hex4Val a b c2 d
    if 0xd800 ≤ u ∧ u ≤ 0xdbff then
      if rest3.take 2 = ['\\', 'u'] then unescapePairAt u rest3 (rest3.drop 2)
      else some ([charOfCodePoint u], rest3)
    else some ([charOfCodePoint u], rest3)
  else none

/-- A `\u` escape needs four following characters. -/
def unescapeU : List Char → Option (List Char × List Char)
  | a :: b :: c2 :: d :: rest3 => unescapeU4 a b c2 d rest3
  | _ => none

/-- Decode one backslash escape (the input starts just after the `\`):
returns the decoded character(s) and the input after the escape, combining
`\uXXXX\uXXXX` surrogate pairs. -/
def unescape1 : List Char → Option (List Char × List Char)
  | [] => none
  | e :: rest2 =>
    if e = 'u' then unescapeU rest2
    else (escMap e).map (fun ch => ([ch], rest2))

/-- `json.decoder.py_scanstring` in strict mode, positioned just after the
opening quote: returns the decoded content and the input after the closing
quote.  Control characters below U+0020 and invalid escapes fail.  The
fuel only bounds recursion (each recursive call consumes at least one
character, so `length + 1` fuel always suffices). -/
def scanStringF : Nat → List Char → Option (List Char × List Char)
  | 0, _ => none
  | _ + 1, [] => none
  | fuel + 1, c :: rest =>
    if c = '"' then some ([], rest)
    else if c = '\\' then
      (unescape1 rest).bind (fun p =>
        (scanStringF fuel p.2).map (fun q => (p.1 ++ q.1, q.2)))
    else if c.toNat < 0x20 then none
    else (scanStringF fuel rest).map (fun p => (c :: p.1, p.2))

/-- `py_scanstring` at its canonical fuel. -/
def scanString (s : List Char) : Option (List Char × List Char) :=
  scanStringF (s.length + 1) s

/-- The integer part of `json.scanner.NUMBER_RE`: `-?(0|[1-9]\d*)` continued
from an already-consumed optional sign. -/
def scanNumInt : List Char → Option (List Char × List Char)
  | [] => none
  | c :: rest =>
    if c = '0' then some (['0'], rest)
    else if c.isDigit then
      some (c :: rest.takeWhile Char.isDigit, rest.dropWhile Char.isDigit)
    else none

/-- The optional fraction `(\.\d+)?`: consumed only when at least one digit
follows the dot (regex backtracking otherwise leaves it in place). -/
def scanNumFrac (s : List Char) : List Char × List Char :=
  match s with
  | c :: rest =>
    if c = '.' then
      let ds := rest.takeWhile Char.isDigit
      if ds.isEmpty then ([], s) else ('.' :: ds, rest.dropWhile Char.isDigit)
    else ([], s)
  | [] => ([], s)

/-- The optional exponent `([eE][-+]?\d+)?`, likewise backtracking. -/
def scanNumExp : List Char → List Char × List Char
  | [] => ([], [])
  | [e] => ([], [e])
  | e :: sgn :: rest2 =>
    if e = 'e' ∨ e = 'E' then
      if sgn = '+' ∨ sgn = '-' then
        let ds := rest2.takeWhile Char.isDigit
        if ds.isEmpty then ([], e :: sgn :: rest2)
        else (e :: sgn :: ds, rest2.dropWhile Char.isDigit)
      else
        let ds := (sgn :: rest2).takeWhile Char.isDigit
        if ds.isEmpty then ([], e :: sgn :: rest2)
        else (e :: ds, (sgn :: rest2).dropWhile Char.isDigit)
    else ([], e :: sgn :: rest2)

/-- Integer part, fraction and exponent in sequence (the regex after the
optional sign). -/
def scanNumTail (s1 : List Char) : Option (List Char × List Char) :=
  match scanNumInt s1 with
  | none => none
  | some (ip, s2) =>
    some (ip ++ (scanNumFrac s2).1 ++ (scanNumExp (scanNumFrac s2).2).1,
      (scanNumExp (scanNumFrac s2).2).2)

/-- A maximal match of `NUMBER_RE` anchored at the start, returning the
matched lexeme and the rest. -/
def scanNumber (s : List Char) : Option (List Char × List Char) :=
  match s with
  | [] => none
  | c :: r =>
    if c = '-' then (scanNumTail r).map (fun p => ('-' :: p.1, p.2))
    else scanNumTail (c :: r)

/-! ## Python `json`: the recursive value scanner (`_scan_once`)

Fuel-indexed mutual recursion; `2 * length + 2` fuel is always sufficient
(each fuel decrement accompanies at most two distinct consumed characters),
and a fuel-monotonicity lemma lets theorems be stated at any sufficient
fuel. -/

mutual

/-- `json.scanner.py_make_scanner._scan_once` positioned at a value's first
character (whitespace not yet skipped): dispatch on the leading character to
string / object / array / `null` / `true` / `false` / `NUMBER_RE` /
`NaN` / `Infinity` / `-Infinity`, in the Python order. -/
def scanValueF : Nat → List Char → Option (Json × List Char)
  | 0, _ => none
  | _ + 1, [] => none
  | fuel + 1, c :: rest =>
    if c = '"' then (scanString rest).map (fun p => (Json.str p.1, p.2))
    else if c = '\x7b' then scanObjectF fuel rest
    else if c = '[' then scanArrayF fuel rest
    else if c = 'n' then
      if rest.take 3 = ['u', 'l', 'l'] then some (Json.null, rest.drop 3) else none
    else if c = 't' then
      if rest.take 3 = ['r', 'u', 'e'] then some (Json.bool true, rest.drop 3) else none
    else if c = 'f' then
      if rest.take 4 = ['a', 'l', 's', 'e'] then some (Json.bool false, rest.drop 4)
      else none
    else if c = 'N' then
      if rest.take 2 = ['a', 'N'] then some (Json.num ['N', 'a', 'N'], rest.drop 2)
      else none
    else if c = 'I' then
      if rest.take 7 = ['n', 'f', 'i', 'n', 'i', 't', 'y'] then
        some (Json.num ('I' :: ['n', 'f', 'i', 'n', 'i', 't', 'y']), rest.drop 7)
      else none
    else
      match scanNumber (c :: rest) with
      | some (lex, r) => some (Json.num lex, r)
      | none =>
        if c = '-' ∧ rest.take 8 = ['I', 'n', 'f', 'i', 'n', 'i', 't', 'y'] then
          some (Json.num ('-' :: ['I', 'n', 'f', 'i', 'n', 'i', 't', 'y']), rest.drop 8)
        else none

/-- `json.decoder.JSONArray` positioned just after the `[`. -/
def scanArrayF : Nat → List Char → Option (Json × List Char)
  | 0, _ => none
  | fuel + 1, s =>
    match skipWs s with
    | [] => scanArrayItemsF fuel [] |>.map (fun p => (Json.arr p.1, p.2))
    | c :: r =>
      if c = ']' then some (Json.arr [], r)
      else (scanArrayItemsF fuel (c :: r)).map (fun p => (Json.arr p.1, p.2))

/-- The element loop of `JSONArray`, positioned at an element's first
character. -/
def scanArrayItemsF : Nat → List Char → Option (List Json × List Char)
  | 0, _ => none
  | fuel + 1, s =>
    match scanValueF fuel s with
    | none => none
    | some (v, r) =>
      match skipWs r with
      | [] => none
      | c :: r2 =>
        if c = ']' then some ([v], r2)
        else if c = ',' then
          (scanArrayItemsF fuel (skipWs r2)).map (fun p => (v :: p.1, p.2))
        else none

/-- `json.decoder.JSONObject` positioned just after the `{`. -/
def scanObjectF : Nat → List Char → Option (Json × List Char)
  | 0, _ => none
  | fuel + 1, s =>
    match skipWs s with
    | [] => scanObjectMembersF fuel [] |>.map (fun p => (Json.obj (pairsToDict p.1), p.2))
    | c :: r =>
      if c = '\x7d' then some (Json.obj [], r)
      else
        (scanObjectMembersF fuel (c :: r)).map
          (fun p => (Json.obj (pairsToDict p.1), p.2))

/-- The member loop of `JSONObject`, positioned at a key's opening quote. -/
def scanObjectMembersF : Nat → List Char → Option (List (List Char × Json) × List Char)
  | 0, _ => none
  | fuel + 1, s =>
    match s with
    | [] => none
    | c0 :: r =>
      if c0 = '"' then
        match scanString r with
        | none => none
        | some (k, r1) =>
          match skipWs r1 with
          | [] => none
          | c1 :: r2 =>
            if c1 = ':' then
              match scanValueF fuel (skipWs r2) with
              | none => none
              | some (v, r3) =>
                match skipWs r3 with
                | [] => none
                | c2 :: r4 =>
                  if c2 = '\x7d' then some ([(k, v)], r4)
                  else if c2 = ',' then
                    (scanObjectMembersF fuel (skipWs r4)).map
                      (fun p => ((k, v) :: p.1, p.2))
                  else none
            else none
      else none

end

/-- Sufficient fuel for scanning `s`. -/
def scanFuel (s : List Char) : Nat := 2 * s.length + 2

/-- `LenientJSONDecoder.get_obj_length`: skip leading whitespace, run
`raw_decode`, extend over trailing whitespace, and return the number of
characters consumed; `none` models the raised `JSONDecodeError`. -/
def get_obj_length (s : List Char) : Option Nat :=
  match scanValueF (scanFuel s) (skipWs s) with
  | none => none
  | some (_, rem) => some (s.length - (skipWs rem).length)

/-- Python `json.loads` with the default (strict) decoder: the whole input,
up to trailing whitespace, must be one JSON value. -/
def json_loads (s : List Char) : Option Json :=
  match scanValueF (scanFuel s) (skipWs s) with
  | none => none
  | some (j, rem) => if skipWs rem = [] then some j else none

/-- `json.loads(s, cls=LenientJSONDecoder)`: trailing content is ignored
(`LenientJSONDecoder.decode` drops the end check). -/
def json_loads_lenient (s : List Char) : Option Json :=
  match scanValueF (scanFuel s) (skipWs s) with
  | none => none
  | some (j, _) => some j

/-! ## `parser.py`: the frame-decoding loop of `merge_next_f_scripts`
(lines 52–110), acting on the combined buffer -/

/-- One decoded frame, the `entry` dict of the loop.  `val` is a `Json`
because `extract_data_from_scripts` may later overwrite it with an arbitrary
parsed value; the decoder itself always stores `Json.str`. -/
structure Frame where
  hex_string : List Char
  data_type : List Char
  obj_length : Nat
  val : Json
  deriving Repr

/-- The first resync signature of line 91: `':{"__typename'` — with a
leading colon. -/
def resyncSigT : List Char := (":\x7b\"__typename").toList

/-- The second resync signature of line 91: `'["$","$L1f",'`. -/
def resyncSigArr : List Char := ("[\"$\",\"$L1f\",").toList

/-- The two resync signatures of line 91, in order. -/
def resyncChecks : List (List Char) := [resyncSigT, resyncSigArr]

/-- Lines 90–98: after slicing a `"T"` frame (`backup` is the pre-slice
buffer, `val = backup[:obj_length]`, `other = backup[obj_length:]`), look
for the first signature occurring in `val + other[:20]`; if found, restart
from its position in `backup` minus 2, clamped at 0; otherwise leave the
cursor unchanged. -/
def applyResync (backup : List Char) (obj_length : Nat) : List Char :=
  let val := backup.take obj_length
  let other := backup.drop obj_length
  match resyncChecks.find? (fun c => occursIn c (val ++ other.take 20)) with
  | none => other
  | some c =>
    let found : Int := match findSubstr c backup with
      | some i => (i : Int)
      | none => -1
    let index_start : Int := found - 2
    let index_start := if index_start < 0 then (0 : Int) else index_start
    backup.drop index_start.toNat

/-- Lines 77–84: the declared length (when present) is only a first guess —
the probe is always attempted and overrides it on success; without a
declared length a probe failure is fatal (`none`). -/
def computeObjLength (declared : Option Nat) (other : List Char) : Option Nat :=
  match declared with
  | none => get_obj_length other
  | some l => some ((get_obj_length other).getD l)

/-- Outcome of one pass of the `while True` body. -/
inductive StepOut where
  /-- A `break` before any frame is appended (no hex id, or no length hex
  after a `"T"` tag). -/
  | stop : StepOut
  /-- The uncaught `JSONDecodeError` of line 78. -/
  | fail : StepOut
  /-- A frame was appended; `rest` is the buffer for the next pass. -/
  | frame (f : Frame) (rest : List Char) : StepOut

/-- One pass of the loop body (lines 53–105). -/
def decodeStep (other0 : List Char) : StepOut :=
  let hex_string := get_next_hex_string other0
  if hex_string.isEmpty then .stop
  else
    let other1 := splitOnceAfter1 hex_string other0
    let data_type := get_next_data_type_string other1
    let tagged : Option (Option Nat × List Char) :=
      if data_type.isEmpty then some (none, other1)
      else if data_type = ['T'] then
        let length_hex := get_next_hex_string (other1.drop 1)
        if length_hex.isEmpty then none
        else some (some (hexToNat length_hex), splitOnceAfter1 length_hex other1)
      else some (none, splitOnceAfter data_type other1)
    match tagged with
    | none => .stop
    | some (declared, other2) =>
      match computeObjLength declared other2 with
      | none => .fail
      | some obj_length =>
        let val := other2.take obj_length
        let rest :=
          if data_type = ['T'] then applyResync other2 obj_length
          else other2.drop obj_length
        .frame ⟨hex_string, data_type, obj_length, Json.str val⟩ rest

/-- The `while True` loop; fuel strictly exceeds the number of iterations
(each iteration strictly shrinks the buffer), so the fuel-exhaustion
`.error` is unreachable from `decodeCombined`. -/
def decodeLoop : Nat → List Char → Except Unit (List Frame)
  | 0, _ => .error ()
  | fuel + 1, other0 =>
    match decodeStep other0 with
    | .stop => .ok []
    | .fail => .error ()
    | .frame f rest =>
      if rest.isEmpty then .ok [f]
      else (decodeLoop fuel rest).map (f :: ·)

/-- Decoding the combined buffer: lines 47–110 of `merge_next_f_scripts`
from `other = combined` on.  `Except.error` models the uncaught
`JSONDecodeError` escaping the call. -/
def decodeCombined (combined : List Char) : Except Unit (List Frame) :=
  decodeLoop (combined.length + 1) combined

/-! ## `client.py`: `extract_data_from_scripts` and its index helpers -/

mutual

/-- Structural equality of parsed JSON values (Python `==` on the decoded
objects; numeric cross-type equalities such as `1 == 1.0` are not modelled —
no input in this development compares numbers). -/
def jsonBEq : Json → Json → Bool
  | .null, .null => true
  | .bool a, .bool b => a == b
  | .num a, .num b => a == b
  | .str a, .str b => a == b
  | .arr a, .arr b => jsonListBEq a b
  | .obj a, .obj b => jsonMembersBEq a b
  | _, _ => false

def jsonListBEq : List Json → List Json → Bool
  | [], [] => true
  | a :: as2, b :: bs => jsonBEq a b && jsonListBEq as2 bs
  | _, _ => false

def jsonMembersBEq : List (List Char × Json) → List (List Char × Json) → Bool
  | [], [] => true
  | (k1, v1) :: r1, (k2, v2) :: r2 => k1 == k2 && jsonBEq v1 v2 && jsonMembersBEq r1 r2
  | _, _ => false

end

/-- A value stored in the extractor's `out` dict: either a parsed JSON value
or the name→title dict built by the team-member comprehension (whose keys
are whatever `m["name"]` held). -/
inductive OutVal where
  | j (v : Json) : OutVal
  | tdict (d : List (Json × Json)) : OutVal
  deriving Repr

/-- The extractor's `out` dict. -/
abbrev OutDict := List (List Char × OutVal)

/-- Python-`dict` insertion into `out`. -/
def outInsert (out : OutDict) (k : List Char) (v : OutVal) : OutDict :=
  match out with
  | [] => [(k, v)]
  | (k0, v0) :: rest =>
    if k0 = k then (k0, v) :: rest else (k0, v0) :: outInsert rest k v

/-- Lookup in `out` (for theorem statements). -/
def outGet (out : OutDict) (k : List Char) : Option OutVal :=
  (out.find? (fun p => p.1 = k)).map (·.2)

/-- Python-`dict` insertion with `Json` keys (the team-member dict). -/
def tdInsert (d : List (Json × Json)) (k v : Json) : List (Json × Json) :=
  match d with
  | [] => [(k, v)]
  | (k0, v0) :: rest =>
    if jsonBEq k0 k then (k0, v) :: rest else (k0, v0) :: tdInsert rest k v

/-- `"{\"@context\""`, the JSON-LD marker of `_get_script2_index`. -/
def ctxMarker : List Char := ("\x7b\"@context\"").toList

/-- `"{\"dangerouslySetInnerHTML\""`, the wrapper marker of
`_get_script2_alt_index`. -/
def wrapMarker : List Char := ("\x7b\"dangerouslySetInnerHTML\"").toList

/-- The escaped context marker `'{\"@context\"'` (`s2` in the source). -/
def escCtxMarker : List Char := ("\x7b\\\"@context\\\"").toList

/-- `_get_script2_index`: index of the first entry whose `val` is a string
starting with the context marker (`isinstance` guard included); `none`
models `-1`. -/
def script2IndexAux : Nat → List Frame → Option Nat
  | _, [] => none
  | i, f :: rest =>
    match f.val with
    | .str s =>
      if ctxMarker.isPrefixOf s then some i else script2IndexAux (i + 1) rest
    | _ => script2IndexAux (i + 1) rest

def script2Index (scripts : List Frame) : Option Nat := script2IndexAux 0 scripts

/-- Python `j[k]` on a parsed JSON value: dict lookup; a missing key
(`KeyError`) or a non-dict (`TypeError`) raises, modelled as `none`. -/
def getItem (j : Json) (k : List Char) : Option Json :=
  match j with
  | .obj d => dictGet d k
  | _ => none

/-- `_get_script2_alt_index`: scan for an entry whose string `val` contains
the wrapper marker followed (within the suffix from the marker) by the
escaped context marker; leniently parse that suffix, unwrap
`["dangerouslySetInnerHTML"]["__html"]`, overwrite the entry's `val` in
place and return the index.  A parse/unwrap failure continues the scan.  A
non-string `val` raises `AttributeError` out of the whole helper (the `find`
is outside the `try`), modelled as `.error`. -/
def script2AltIndexAux : Nat → List Frame → Except Unit (Option Nat × List Frame)
  | _, [] => .ok (none, [])
  | i, f :: rest =>
    match f.val with
    | .str s =>
      match findSubstr wrapMarker s with
      | some idx =>
        let sub := s.drop idx
        if occursIn escCtxMarker sub then
          match (json_loads_lenient sub).bind
              (fun j => (getItem j ("dangerouslySetInnerHTML").toList).bind
                (fun d => getItem d ("__html").toList)) with
          | some inner => .ok (some i, { f with val := inner } :: rest)
          | none =>
            (script2AltIndexAux (i + 1) rest).map (fun p => (p.1, f :: p.2))
        else (script2AltIndexAux (i + 1) rest).map (fun p => (p.1, f :: p.2))
      | none => (script2AltIndexAux (i + 1) rest).map (fun p => (p.1, f :: p.2))
    | _ => .error ()

def script2AltIndex (scripts : List Frame) : Except Unit (Option Nat × List Frame) :=
  script2AltIndexAux 0 scripts

/-- `_get_script4_index`: index of the first entry whose `hex_string` is
exactly `"4"`. -/
def script4IndexAux : Nat → List Frame → Option Nat
  | _, [] => none
  | i, f :: rest =>
    if f.hex_string = ['4'] then some i else script4IndexAux (i + 1) rest

def script4Index (scripts : List Frame) : Option Nat := script4IndexAux 0 scripts

/-- The tail of the first `try` block: `entries[idx]["val"]` parsed
strictly, `data.get("url")` inserted when truthy.  Every caught exception
(decode error, non-string `val`, non-dict `data`) leaves `out` unchanged. -/
def tryUrlFrom (scripts : List Frame) (idx : Nat) (out : OutDict) : OutDict :=
  match scripts.get? idx with
  | none => out
  | some f =>
    match f.val with
    | .str s =>
      match json_loads s with
      | some (.obj d) =>
        match dictGet d ("url").toList with
        | some u => if jsonTruthy u then outInsert out ("url").toList (.j u) else out
        | none => out
      | _ => out
    | _ => out

/-- The first `try` block of `extract_data_from_scripts` (the site-metadata
lookup), returning the updated `out` and the (possibly mutated) entry
list. -/
def extractUrlBlock (scripts : List Frame) (out : OutDict) : OutDict × List Frame :=
  match script2Index scripts with
  | some idx => (tryUrlFrom scripts idx out, scripts)
  | none =>
    match script2AltIndex scripts with
    | .error _ => (out, scripts)
    | .ok (none, scripts') => (out, scripts')
    | .ok (some idx, scripts') => (tryUrlFrom scripts' idx out, scripts')

/-- Python `m` iterated (`for m in team`): list elements, dict keys, or the
characters of a string; anything else raises `TypeError`. -/
def teamElems : Json → Except Unit (List Json)
  | .arr l => .ok l
  | .obj m => .ok (m.map (fun p => Json.str p.1))
  | .str s => .ok (s.map (fun c => Json.str [c]))
  | _ => .error ()

/-- Python `"name" in m`: key test on a dict, substring test on a string,
membership on a list; `TypeError` otherwise. -/
def hasName : Json → Except Unit Bool
  | .obj m => .ok (m.any (fun p => p.1 = ("name").toList))
  | .str s => .ok (occursIn ("name").toList s)
  | .arr l => .ok (l.any (fun x => jsonBEq x (Json.str ("name").toList)))
  | _ => .error ()

/-- Python `m["name"]` (reached only when `"name" in m` held): dict lookup;
string/list indexing by a string key raises `TypeError`. -/
def getName : Json → Except Unit Json
  | .obj m =>
    match dictGet m ("name").toList with
    | some v => .ok v
    | none => .error ()
  | _ => .error ()

/-- The dict comprehension
`{m["name"]: m.get("title") for m in team if "name" in m}`; an exception
mid-comprehension aborts the whole block. -/
def teamFold : List Json → List (Json × Json) → Except Unit (List (Json × Json))
  | [], acc => .ok acc
  | m :: rest, acc =>
    match hasName m with
    | .error _ => .error ()
    | .ok false => teamFold rest acc
    | .ok true =>
      match getName m with
      | .error _ => .error ()
      | .ok nm =>
        let title := match m with
          | .obj mm => (dictGet mm ("title").toList).getD Json.null
          | _ => Json.null
        teamFold rest (tdInsert acc nm title)

/-- Python `json.loads(script_text)[3]`: list index, string index (yielding
a one-character string), or failure (`KeyError`/`IndexError`/`TypeError`). -/
def index3 : Json → Option Json
  | .arr l => l.get? 3
  | .str s => (s.get? 3).map (fun c => Json.str [c])
  | _ => none

/-- The second `try` block of `extract_data_from_scripts` (the profile
lookup): locate the `id == "4"` frame, parse its value, read `[3]["pro"]`,
insert truthy `facebookUrl`/`instagramUrl`, then the team-member dict.  An
exception leaves the inserts made before it (Python mutates `out` in
place). -/
def extractProfileBlock (scripts : List Frame) (out0 : OutDict) : OutDict :=
  match script4Index scripts with
  | none => out0
  | some idx4 =>
    match scripts.get? idx4 with
    | none => out0
    | some f =>
      match f.val with
      | .str s =>
        match json_loads s with
        | none => out0
        | some j =>
          match index3 j with
          | none => out0
          | some inner =>
            match inner with
            | .obj d =>
              match (dictGet d ("pro").toList).getD (Json.obj []) with
              | .obj pd =>
                let out1 :=
                  [("facebookUrl").toList, ("instagramUrl").toList].foldl
                    (fun o k =>
                      match dictGet pd k with
                      | some v => if jsonTruthy v then outInsert o k (.j v) else o
                      | none => o) out0
                match dictGet pd ("teamMembers").toList with
                | some tm =>
                  if jsonTruthy tm then
                    match teamElems tm with
                    | .error _ => out1
                    | .ok elems =>
                      match teamFold elems [] with
                      | .error _ => out1
                      | .ok d2 => outInsert out1 ("teamMembers").toList (.tdict d2)
                  else out1
                | none => out1
              | _ => out0
            | _ => out0
      | _ => out0

/-- `PartySlateClient.extract_data_from_scripts`, also returning the entry
list as left behind (it is mutated in place only by the wrapper unwrap of
`_get_script2_alt_index`). -/
def extract_data_from_scripts (scripts : List Frame) : OutDict × List Frame :=
  let (out1, scripts') := extractUrlBlock scripts []
  (extractProfileBlock scripts' out1, scripts')

/-! ## Views of the framer's step (projections of `decodeStep`'s locals,
used to state claims about individual frames) -/

/-- The buffer after the id and its delimiter are consumed (line 60). -/
def framerOther1 (other0 : List Char) : List Char :=
  splitOnceAfter1 (get_next_hex_string other0) other0

/-- The type tag read for this frame (line 62). -/
def framerTag (other0 : List Char) : List Char :=
  get_next_data_type_string (framerOther1 other0)

/-- The buffer on which the probe of lines 77–84 runs (the `other` left
after lines 65–75). -/
def framerBody (other0 : List Char) : List Char :=
  let other1 := framerOther1 other0
  let dt := get_next_data_type_string other1
  if dt.isEmpty then other1
  else if dt = ['T'] then
    splitOnceAfter1 (get_next_hex_string (other1.drop 1)) other1
  else splitOnceAfter dt other1

/-- The declared length, when one is read (lines 66–73). -/
def framerDeclared (other0 : List Char) : Option Nat :=
  if framerTag other0 = ['T'] then
    let lh := get_next_hex_string ((framerOther1 other0).drop 1)
    if lh.isEmpty then none else some (hexToNat lh)
  else none

/-! ## Specification-side definitions (translated from the claims' wording,
for comparison with the source-derived definitions) -/

/-- The type-tag scanner as claim C3 words it: `"T"` only when the very
first character is `'T'`, otherwise the run collected up to the first
JSON-start character or `'T'`. -/
def dataTypeClaimC3 (s : List Char) : List Char :=
  match s with
  | [] => []
  | c :: _ =>
    if c = 'T' then ['T']
    else s.takeWhile isTagChar

/-- The first resync signature as claim C2 words it: an object beginning
`{"__typename` (no leading colon). -/
def resyncSigClaimC2 : List Char := ("\x7b\"__typename").toList

/-- The string slice a non-`"T"` frame contributes to the buffer: id, one
structural delimiter, tag, value (claim C5's "consumed region"). -/
def frameRegion (f : Frame) (d : Char) : List Char :=
  f.hex_string ++ [d] ++ f.data_type ++ (match f.val with | .str s => s | _ => [])

/-- Claim C5's invariant: the frames partition the buffer left-to-right
with no gaps and no overlaps, each value being exactly the substring
consumed for its frame. -/
def FramesPartition (s : List Char) (frames : List Frame) : Prop :=
  ∃ delims : List Char, delims.length = frames.length ∧
    s = (List.zipWith frameRegion frames delims).flatten

/-- `t` may follow a complete JSON token without extending it: it is empty
or starts with JSON whitespace (the default head of an empty list is the
whitespace `' '`). -/
def wsLead (t : List Char) : Bool := isJsonWs (t.headD ' ')

/-- A chain of JSON values, each paired with the whitespace separating it
from the next. -/
def chainJoin (l : List (List Char × List Char)) : List Char :=
  (l.map (fun p => p.1 ++ p.2)).flatten

/-- Every link but the last has a nonempty separator. -/
def sepOk : List (List Char × List Char) → Bool
  | [] => true
  | [_] => true
  | p :: rest => !p.2.isEmpty && sepOk rest

/-- Iterate the probe, dropping each consumed prefix and collecting the
consumed lengths. -/
def probeSteps : Nat → List Char → List Nat
  | 0, _ => []
  | k + 1, s =>
    match get_obj_length s with
    | none => []
    | some n => n :: probeSteps k (s.drop n)

/-- `v` is exactly one JSON value: the scanner consumes all of it. -/
def jsonValueExact (v : List Char) : Prop :=
  ∃ j, scanValueF (scanFuel v) v = some (j, [])

/-! ## Concrete inputs for the claims -/

/-- The example buffer of claim C1 / spec §8.6. -/
def c1Buffer : List Char :=
  ("4:[null,null,null,\x7b\"pro\":\x7b\"facebookUrl\":\"https://fb.com/x\"," ++
    "\"teamMembers\":[\x7b\"name\":\"Ann Lee\",\"title\":\"Planner\"\x7d]\x7d\x7d]").toList

/-- The single frame `c1Buffer` decodes to. -/
def c1Frame : Frame := ⟨['4'], [], 112, Json.str (c1Buffer.drop 2)⟩

/-- A `"T"` frame whose declared length (3) undershoots a following object
beginning `{"__typename` (claim C2). -/
def c2Buffer : List Char := ("1:T3,a7:\x7b\"__typename\":\"A\"\x7d").toList

/-- The `"T"` frame sliced out of `c2Buffer`. -/
def c2FrameT : Frame := ⟨['1'], ['T'], 3, Json.str (("a7:").toList)⟩

/-- The frame decoded from `c2Buffer` after the resync: it starts at the
opening brace minus 3 (the colon-signature position minus 2), so its id is
`"a7"`. -/
def c2FrameNext : Frame :=
  ⟨("a7").toList, [], 18, Json.str (("\x7b\"__typename\":\"A\"\x7d").toList)⟩

/-- The pre-slice buffer of `c2Buffer`'s `"T"` frame. -/
def c2Backup : List Char := ("a7:\x7b\"__typename\":\"A\"\x7d").toList

/-- A buffer whose post-delimiter remainder is `abT}`: the tag scan returns
`"T"` (seen mid-scan), and the length-hex run is read at position 1 — the
`'b'` — not after the `'T'` (claim C10). -/
def c10Buffer : List Char := ("0:abT\x7d").toList

/-- The frame `c10Buffer` decodes to: declared length `0xb`, probe failure
tolerated, value clamped to the remaining `"}"`. -/
def c10Frame : Frame := ⟨['0'], ['T'], 11, Json.str ['\x7d']⟩

/-- A concrete probe chain for claim C6: the buffer `"1 {}"`, a number
followed by one space of separating whitespace followed by an empty
object. -/
def c6ChainEx : List (List Char × List Char) :=
  [(['1'], [' ']), (['\x7b', '\x7d'], [])]

/-- A profile frame (id `"4"`) whose value parses and carries
`facebookUrl` and `teamMembers`, with no site-metadata frame anywhere
(claim C7). -/
def c7ProFrame : Frame :=
  ⟨['4'], [], 0, Json.str (("[null,null,null,\x7b\"pro\":\x7b\"facebookUrl\":\"f\"," ++
    "\"teamMembers\":[\x7b\"name\":\"A\",\"title\":\"B\"\x7d]\x7d\x7d]").toList)⟩

/-- A site-metadata frame (value starting with the JSON-LD context marker,
carrying a truthy `url`), with no profile frame anywhere (claim C7). -/
def c7MetaFrame : Frame :=
  ⟨['2'], [], 0, Json.str (("\x7b\"@context\":\"s\",\"url\":\"https://u.example\"\x7d").toList)⟩

/-! ## Shared lemmas -/

/-- The tag scanner characterised: `"T"` exactly when a `'T'` occurs in the
run before the first JSON-start character, the collected run otherwise. -/
theorem get_next_data_type_eq (s : List Char) :
    get_next_data_type_string s =
      if 'T' ∈ s.takeWhile (fun c => !isTagStop c) then ['T']
      else s.takeWhile isTagChar := by
  induction s with
  | nil => rfl
  | cons c rest ih =>
    by_cases hT : c = 'T'
    · subst hT
      simp [get_next_data_type_string, isTagStop, List.takeWhile_cons]
    · by_cases hstop : isTagStop c
      · have hchar : isTagChar c = false := by simp [isTagChar, hstop]
        simp [get_next_data_type_string, hT, hstop, List.takeWhile_cons, hchar]
      · have hchar : isTagChar c = true := by simp [isTagChar, hstop, hT]
        by_cases hmem : 'T' ∈ rest.takeWhile (fun c => !isTagStop c)
        · simp [get_next_data_type_string, hT, hstop, List.takeWhile_cons, hchar,
            hmem, ih]
        · have hne : rest.takeWhile isTagChar ≠ ['T'] := by
            intro h
            have hmT : 'T' ∈ rest.takeWhile isTagChar := by
              rw [h]; exact List.mem_singleton_self _
            have := List.mem_takeWhile_imp hmT
            simp [isTagChar] at this
          simp [get_next_data_type_string, hT, hstop, List.takeWhile_cons, hchar,
            hmem, ih, hne, Ne.symm hT]

/-- A collected (non-`"T"`) tag is the maximal prefix avoiding stop
characters and `'T'`. -/
theorem tag_eq_takeWhile {s : List Char}
    (h : get_next_data_type_string s ≠ ['T']) :
    get_next_data_type_string s = s.takeWhile isTagChar := by
  rw [get_next_data_type_eq] at h ⊢
  split at h
  · exact absurd rfl h
  · next hmem => simp [hmem]

/-- A prefix is found at position 0. -/
theorem findSubstr_of_prefix {nd h : List Char} (hp : nd.isPrefixOf h) :
    findSubstr nd h = some 0 := by
  cases h with
  | nil => simp [findSubstr, hp]
  | cons c rest => simp [findSubstr, hp]

/-- What `findSubstr` finds is a prefix of the suffix at that position. -/
theorem findSubstr_prefix_drop {nd h : List Char} {p : Nat}
    (hf : findSubstr nd h = some p) : nd.isPrefixOf (h.drop p) := by
  induction h generalizing p with
  | nil =>
    unfold findSubstr at hf
    split at hf
    · next hp => cases hf; simpa using hp
    · cases hf
  | cons c rest ih =>
    unfold findSubstr at hf
    split at hf
    · next hp => cases hf; simpa using hp
    · next hp =>
      match hrec : findSubstr nd rest with
      | none => rw [hrec] at hf; cases hf
      | some q =>
        rw [hrec] at hf
        simp at hf
        subst hf
        simpa using ih hrec

/-- An occurrence anywhere makes `occursIn` true. -/
theorem occursIn_of_prefix_drop {nd h : List Char} {q : Nat}
    (hp : nd.isPrefixOf (h.drop q)) : occursIn nd h = true := by
  induction h generalizing q with
  | nil =>
    simp only [List.drop_nil] at hp
    simp [occursIn, findSubstr, hp]
  | cons c rest ih =>
    cases q with
    | zero =>
      simp only [List.drop_zero] at hp
      simp [occursIn, findSubstr, hp]
    | succ q' =>
      simp only [List.drop_succ_cons] at hp
      have := ih hp
      simp only [occursIn, findSubstr] at this ⊢
      split
      · simp
      · simpa using this

/-- A prefix of `l` that fits inside `l.take k` is a prefix of it. -/
theorem prefix_take_of_le {nd l : List Char} {k : Nat}
    (hp : nd.isPrefixOf l) (hk : nd.length ≤ k) :
    nd.isPrefixOf (l.take k) := by
  rw [List.isPrefixOf_iff_prefix] at hp ⊢
  obtain ⟨t, rfl⟩ := hp
  rw [List.take_append_eq_append_take]
  rw [List.take_of_length_le hk]
  exact ⟨_, rfl⟩

/-- Splitting `take (n + k)` at `n`. -/
theorem take_append_drop_take (l : List Char) (n k : Nat) :
    l.take n ++ (l.drop n).take k = l.take (n + k) := by
  rw [List.take_drop]
  have h1 : l.take n = (l.take (n + k)).take n := by
    rw [List.take_take]
    congr 1
    omega
  rw [h1, List.take_append_drop]

/-- `decodeStep` characterised through the framer views, for a buffer with
a nonempty leading hex run. -/
theorem decodeStep_char (other0 : List Char)
    (hhex : (get_next_hex_string other0).isEmpty = false) :
    decodeStep other0 =
      (if framerTag other0 = ['T'] then
        if (get_next_hex_string ((framerOther1 other0).drop 1)).isEmpty then
          StepOut.stop
        else
          let obj := (get_obj_length (framerBody other0)).getD
            (hexToNat (get_next_hex_string ((framerOther1 other0).drop 1)))
          StepOut.frame
            ⟨get_next_hex_string other0, framerTag other0, obj,
             Json.str ((framerBody other0).take obj)⟩
            (applyResync (framerBody other0) obj)
      else
        match get_obj_length (framerBody other0) with
        | none => StepOut.fail
        | some m =>
          StepOut.frame
            ⟨get_next_hex_string other0, framerTag other0, m,
             Json.str ((framerBody other0).take m)⟩
            ((framerBody other0).drop m)) := by
  rw [decodeStep]
  simp only [hhex, Bool.false_eq_true, if_false]
  rw [framerTag, framerBody, framerOther1]
  set other1 := splitOnceAfter1 (get_next_hex_string other0) other0 with hother1
  set dt := get_next_data_type_string other1 with hdt
  by_cases hT : dt = ['T']
  · have hne : dt.isEmpty = false := by rw [hT]; rfl
    by_cases hlh : get_next_hex_string (other1.drop 1) = []
    · rw [List.drop_one] at hlh
      simp [hT, hne, hlh]
    · rw [List.drop_one] at hlh
      simp [hT, hne, hlh, computeObjLength]
  · by_cases hde : dt.isEmpty
    · have hde' : dt = [] := by simpa [List.isEmpty_iff] using hde
      simp only [hde, if_true, hde', hT, if_false, computeObjLength]
      cases h : get_obj_length other1 <;> simp [hde', hT, h]
    · simp only [hde, Bool.false_eq_true, if_false, hT, computeObjLength]

/-- The probe rejects an empty buffer. -/
theorem get_obj_length_nil : get_obj_length [] = none := rfl

/-- A hex run is a prefix of its buffer. -/
theorem hex_isPrefixOf (s : List Char) : (get_next_hex_string s).isPrefixOf s := by
  rw [List.isPrefixOf_iff_prefix, get_next_hex_string]
  exact ⟨s.dropWhile isHexLower, List.takeWhile_append_dropWhile isHexLower s⟩

/-- Dropping the collected run leaves the `dropWhile` remainder. -/
theorem drop_takeWhile_length (p : Char → Bool) (l : List Char) :
    l.drop (l.takeWhile p).length = l.dropWhile p := by
  induction l with
  | nil => rfl
  | cons c rest ih =>
    by_cases hc : p c
    · simp [List.takeWhile_cons, List.dropWhile_cons, hc, ih]
    · simp [List.takeWhile_cons, List.dropWhile_cons, hc]

/-- After the id and its delimiter, the buffer splits into tag followed by
the probe body (non-`"T"` tags only). -/
theorem framerOther1_split (s : List Char) (hT : framerTag s ≠ ['T']) :
    framerOther1 s = framerTag s ++ framerBody s := by
  rw [framerTag] at hT
  have htag : get_next_data_type_string (framerOther1 s)
      = (framerOther1 s).takeWhile isTagChar := tag_eq_takeWhile hT
  rw [framerBody, framerTag]
  by_cases hde : (get_next_data_type_string (framerOther1 s)).isEmpty
  · have h0 : get_next_data_type_string (framerOther1 s) = [] := by
      simpa [List.isEmpty_iff] using hde
    simp [hde, h0]
  · rw [if_neg (by simpa using hde), if_neg hT]
    have hpre2 : (get_next_data_type_string (framerOther1 s)).isPrefixOf
        (framerOther1 s) := by
      rw [htag, List.isPrefixOf_iff_prefix]
      exact ⟨_, List.takeWhile_append_dropWhile isTagChar (framerOther1 s)⟩
    simp only [splitOnceAfter, findSubstr_of_prefix hpre2, Nat.zero_add]
    rw [htag, drop_takeWhile_length]
    exact (List.takeWhile_append_dropWhile isTagChar (framerOther1 s)).symm

/-- A frame emitted by `decodeStep` with a non-`"T"` tag consumes the exact
contiguous region id ++ delimiter ++ tag ++ value at the head of the
buffer. -/
theorem decodeStep_frame_decomp {s : List Char} {f : Frame} {rest : List Char}
    (hstep : decodeStep s = StepOut.frame f rest)
    (hnT : f.data_type ≠ ['T']) :
    ∃ d : Char, s = frameRegion f d ++ rest := by
  have hhex' : (get_next_hex_string s).isEmpty = false := by
    by_contra hc
    simp only [Bool.not_eq_false] at hc
    rw [decodeStep] at hstep
    rw [hc] at hstep
    cases hstep
  rw [decodeStep_char s hhex'] at hstep
  by_cases hT : framerTag s = ['T']
  · rw [if_pos hT] at hstep
    by_cases hlh : (get_next_hex_string ((framerOther1 s).drop 1)).isEmpty
    · rw [if_pos hlh] at hstep; cases hstep
    · rw [if_neg hlh] at hstep
      cases hstep
      exact absurd hT hnT
  · rw [if_neg hT] at hstep
    cases hm : get_obj_length (framerBody s) with
    | none => rw [hm] at hstep; cases hstep
    | some m =>
      rw [hm] at hstep
      cases hstep
      have hpre := hex_isPrefixOf s
      have hfind : findSubstr (get_next_hex_string s) s = some 0 :=
        findSubstr_of_prefix hpre
      have hother1 : framerOther1 s = s.drop ((get_next_hex_string s).length + 1) := by
        rw [framerOther1, splitOnceAfter1, splitOnceAfter, hfind, List.drop_drop]
        congr 1
        omega
      have hsplit : s = get_next_hex_string s ++ s.dropWhile isHexLower := by
        rw [get_next_hex_string]
        exact (List.takeWhile_append_dropWhile isHexLower s).symm
      cases hdw : s.dropWhile isHexLower with
      | nil =>
        exfalso
        have hslen : s.length = (get_next_hex_string s).length := by
          conv_lhs => rw [hsplit, hdw]
          simp
        have h1 : framerOther1 s = [] := by
          rw [hother1]
          exact List.drop_eq_nil_of_le (by omega)
        have hbody : framerBody s = [] := by
          rw [framerBody, h1]
          simp [get_next_data_type_string]
        rw [hbody, get_obj_length_nil] at hm
        cases hm
      | cons d tail =>
        refine ⟨d, ?_⟩
        have hgen : ∀ l : List Char, l = get_next_hex_string s ++ d :: tail →
            l.drop ((get_next_hex_string s).length + 1) = tail := by
          intro l hl
          rw [hl, ← List.drop_drop, List.drop_left, List.drop_one, List.tail_cons]
        have htail : framerOther1 s = tail := by
          rw [hother1]
          exact hgen s (by conv_lhs => rw [hsplit, hdw])
        calc s = get_next_hex_string s ++ (d :: tail) := by
              conv_lhs => rw [hsplit, hdw]
          _ = get_next_hex_string s ++ (d :: (framerTag s ++ framerBody s)) := by
              rw [← htail, framerOther1_split s hT]
          _ = frameRegion
                ⟨get_next_hex_string s, framerTag s, m,
                 Json.str ((framerBody s).take m)⟩ d ++ (framerBody s).drop m := by
              simp [frameRegion, List.append_assoc]

/-! ## Lemmas about the JSON scanner -/

theorem scanValueF_nil (f : Nat) : scanValueF f [] = none := by cases f <;> rfl

theorem scanArrayItemsF_nil (f : Nat) : scanArrayItemsF f [] = none := by
  cases f with
  | zero => rfl
  | succ f => simp [scanArrayItemsF, scanValueF_nil]

theorem scanObjectMembersF_nil (f : Nat) : scanObjectMembersF f [] = none := by
  cases f <;> rfl

theorem ws_not_digit {c : Char} (h : isJsonWs c = true) : c.isDigit = false := by
  simp only [isJsonWs, Bool.or_eq_true, decide_eq_true_eq] at h
  rcases h with ((rfl | rfl) | rfl) | rfl <;> decide

theorem ws_ne {c c' : Char} (h : isJsonWs c = true) (h' : isJsonWs c' = false) :
    c ≠ c' := by
  intro he
  subst he
  rw [h] at h'
  cases h'

/-- If `t` contributes nothing to a `takeWhile`, appending it changes
nothing. -/
theorem takeWhile_append_of_nil {p : Char → Bool} {t : List Char}
    (ht : t.takeWhile p = []) (l : List Char) :
    (l ++ t).takeWhile p = l.takeWhile p := by
  induction l with
  | nil => simpa using ht
  | cons c rest ih => by_cases hc : p c <;> simp [List.takeWhile_cons, hc, ih]

theorem dropWhile_eq_self_of_takeWhile_nil {p : Char → Bool} {t : List Char}
    (ht : t.takeWhile p = []) : t.dropWhile p = t := by
  cases t with
  | nil => rfl
  | cons c rest =>
    rw [List.takeWhile_cons] at ht
    split at ht
    · cases ht
    · next hc => simp [List.dropWhile_cons, hc]

theorem dropWhile_append_of_nil {p : Char → Bool} {t : List Char}
    (ht : t.takeWhile p = []) (l : List Char) :
    (l ++ t).dropWhile p = l.dropWhile p ++ t := by
  induction l with
  | nil => simpa using dropWhile_eq_self_of_takeWhile_nil ht
  | cons c rest ih => by_cases hc : p c <;> simp [List.dropWhile_cons, hc, ih]

/-- An all-`p` run is skipped entirely by `dropWhile`. -/
theorem dropWhile_append_of_all {p : Char → Bool} {l : List Char}
    (hl : l.all p = true) (t : List Char) :
    (l ++ t).dropWhile p = t.dropWhile p := by
  induction l with
  | nil => rfl
  | cons c rest ih =>
    simp only [List.all_cons, Bool.and_eq_true] at hl
    simp [List.dropWhile_cons, hl.1, ih hl.2]

/-- Whitespace-led tails contribute nothing to a digit run. -/
theorem digits_takeWhile_ws {t : List Char} (hws : wsLead t = true) :
    t.takeWhile Char.isDigit = [] := by
  cases t with
  | nil => rfl
  | cons c rest =>
    rw [wsLead, List.headD_cons] at hws
    simp [List.takeWhile_cons, ws_not_digit hws]

theorem scanNumInt_append {s t s2 : List Char} {ip : List Char}
    (h : scanNumInt s = some (ip, s2)) (hws : wsLead t = true) :
    scanNumInt (s ++ t) = some (ip, s2 ++ t) := by
  cases s with
  | nil => cases h
  | cons c rest =>
    rw [scanNumInt] at h
    rw [List.cons_append, scanNumInt]
    split at h
    · cases h
      simp_all
    · next hc0 =>
      split at h
      · next hdig =>
        cases h
        rw [if_neg hc0, if_pos hdig]
        rw [takeWhile_append_of_nil (digits_takeWhile_ws hws),
          dropWhile_append_of_nil (digits_takeWhile_ws hws)]
      · cases h

theorem scanNumInt_none_append {s t : List Char}
    (h : scanNumInt s = none) (hws : wsLead t = true) :
    scanNumInt (s ++ t) = none := by
  cases s with
  | nil =>
    cases t with
    | nil => rfl
    | cons c rest =>
      rw [wsLead, List.headD_cons] at hws
      rw [List.nil_append, scanNumInt]
      rw [if_neg (ws_ne hws (by decide)), if_neg (by simp [ws_not_digit hws])]
  | cons c rest =>
    rw [scanNumInt] at h
    rw [List.cons_append, scanNumInt]
    split at h
    · cases h
    · next hc0 =>
      split at h
      · cases h
      · next hdig => rw [if_neg hc0, if_neg hdig]

theorem scanNumFrac_append {s : List Char} (t : List Char) (hws : wsLead t = true) :
    scanNumFrac (s ++ t) = ((scanNumFrac s).1, (scanNumFrac s).2 ++ t) := by
  cases s with
  | nil =>
    cases t with
    | nil => rfl
    | cons c rest =>
      rw [wsLead, List.headD_cons] at hws
      have hne : c ≠ '.' := ws_ne hws (by decide)
      simp [scanNumFrac, hne]
  | cons c rest =>
    rw [List.cons_append]
    simp only [scanNumFrac]
    by_cases hc : c = '.'
    · rw [if_pos hc, if_pos hc]
      rw [takeWhile_append_of_nil (digits_takeWhile_ws hws),
        dropWhile_append_of_nil (digits_takeWhile_ws hws)]
      by_cases hds : (rest.takeWhile Char.isDigit).isEmpty <;> simp [hds]
    · simp [hc]

theorem scanNumExp_append {s : List Char} (t : List Char) (hws : wsLead t = true) :
    scanNumExp (s ++ t) = ((scanNumExp s).1, (scanNumExp s).2 ++ t) := by
  have hdig := digits_takeWhile_ws hws
  match s, t with
  | [], [] => rfl
  | [], c :: r =>
    rw [wsLead, List.headD_cons] at hws
    have h1 : c ≠ 'e' := ws_ne hws (by decide)
    have h2 : c ≠ 'E' := ws_ne hws (by decide)
    cases r with
    | nil => simp [scanNumExp]
    | cons c2 r2 => simp [scanNumExp, h1, h2]
  | [e], [] => rfl
  | [e], c :: r =>
    rw [wsLead, List.headD_cons] at hws
    have h1 : c ≠ '+' := ws_ne hws (by decide)
    have h2 : c ≠ '-' := ws_ne hws (by decide)
    simp only [List.cons_append, List.nil_append, scanNumExp]
    by_cases he : e = 'e' ∨ e = 'E'
    · rw [if_pos he, if_neg (by simp [h1, h2])]
      simp [List.takeWhile_cons, ws_not_digit hws]
    · rw [if_neg he]
  | e :: sgn :: rest2, t =>
    simp only [List.cons_append, scanNumExp]
    by_cases he : e = 'e' ∨ e = 'E'
    · rw [if_pos he, if_pos he]
      by_cases hsgn : sgn = '+' ∨ sgn = '-'
      · rw [if_pos hsgn, if_pos hsgn]
        rw [takeWhile_append_of_nil hdig, dropWhile_append_of_nil hdig]
        by_cases hds : (rest2.takeWhile Char.isDigit).isEmpty <;> simp [hds]
      · rw [if_neg hsgn, if_neg hsgn]
        rw [show sgn :: (rest2 ++ t) = (sgn :: rest2) ++ t from rfl]
        rw [takeWhile_append_of_nil hdig, dropWhile_append_of_nil hdig]
        by_cases hds : ((sgn :: rest2).takeWhile Char.isDigit).isEmpty <;> simp [hds]
    · rw [if_neg he, if_neg he]
      simp

theorem scanNumTail_append {s1 t lex r : List Char}
    (h : scanNumTail s1 = some (lex, r)) (hws : wsLead t = true) :
    scanNumTail (s1 ++ t) = some (lex, r ++ t) := by
  rw [scanNumTail] at h
  rw [scanNumTail]
  cases hint : scanNumInt s1 with
  | none => rw [hint] at h; cases h
  | some p =>
    obtain ⟨ip, s2⟩ := p
    rw [hint] at h
    rw [scanNumInt_append hint hws]
    simp only [Option.some.injEq, Prod.mk.injEq] at h ⊢
    rw [scanNumFrac_append t hws, scanNumExp_append t hws]
    simp only
    obtain ⟨h1, h2⟩ := h
    exact ⟨h1, by rw [← h2]⟩

theorem scanNumTail_none_append {s1 : List Char} (t : List Char)
    (h : scanNumTail s1 = none) (hws : wsLead t = true) :
    scanNumTail (s1 ++ t) = none := by
  rw [scanNumTail] at h
  rw [scanNumTail]
  cases hint : scanNumInt s1 with
  | none => rw [scanNumInt_none_append hint hws]
  | some p => rw [hint] at h; obtain ⟨ip, s2⟩ := p; cases h

theorem scanNumber_append {s t lex r : List Char}
    (h : scanNumber s = some (lex, r)) (hws : wsLead t = true) :
    scanNumber (s ++ t) = some (lex, r ++ t) := by
  cases s with
  | nil => cases h
  | cons c rest =>
    rw [scanNumber] at h
    rw [List.cons_append, scanNumber]
    by_cases hc : c = '-'
    · rw [if_pos hc] at h ⊢
      cases htail : scanNumTail rest with
      | none => rw [htail] at h; cases h
      | some p =>
        obtain ⟨lx, rr⟩ := p
        rw [htail] at h
        simp only [Option.map, Option.some.injEq, Prod.mk.injEq] at h
        obtain ⟨h1, h2⟩ := h
        rw [scanNumTail_append htail hws]
        simp only [Option.map, Option.some.injEq, Prod.mk.injEq]
        exact ⟨h1, by rw [← h2]⟩
    · rw [if_neg hc] at h ⊢
      exact scanNumTail_append h hws

theorem scanNumber_none_append {s : List Char} (t : List Char)
    (h : scanNumber s = none) (hws : wsLead t = true) :
    scanNumber (s ++ t) = none := by
  cases s with
  | nil =>
    rw [List.nil_append]
    cases t with
    | nil => rfl
    | cons c r =>
      rw [wsLead, List.headD_cons] at hws
      rw [scanNumber, if_neg (ws_ne hws (by decide))]
      rw [scanNumTail, scanNumInt]
      rw [if_neg (ws_ne hws (by decide)), if_neg (by simp [ws_not_digit hws])]
  | cons c rest =>
    rw [scanNumber] at h
    rw [List.cons_append, scanNumber]
    by_cases hc : c = '-'
    · rw [if_pos hc] at h ⊢
      cases htail : scanNumTail rest with
      | none => rw [scanNumTail_none_append t htail hws]; rfl
      | some p => rw [htail] at h; cases h
    · rw [if_neg hc] at h ⊢
      exact scanNumTail_none_append t h hws

theorem scanStringF_nil (f : Nat) : scanStringF f [] = none := by cases f <;> rfl

theorem scanStringF_single_backslash (f : Nat) : scanStringF f ['\\'] = none := by
  cases f <;> rfl

/-- Decoding one escape is not disturbed by appending input, provided the
remainder is not a truncated second `\u` escape (which a surrounding
successful string scan rules out). -/
theorem unescape1_append {r t cs r' : List Char}
    (h : unescape1 r = some (cs, r'))
    (hne : r' ≠ []) (hnb : r' ≠ ['\\']) :
    unescape1 (r ++ t) = some (cs, r' ++ t) := by
  cases r with
  | nil => cases h
  | cons e rest2 =>
    rw [unescape1] at h
    rw [List.cons_append, unescape1]
    by_cases hu : e = 'u'
    · rw [if_pos hu] at h ⊢
      cases rest2 with
      | nil => cases h
      | cons a r2 =>
      cases r2 with
      | nil => cases h
      | cons b r3 =>
      cases r3 with
      | nil => cases h
      | cons c2 r4 =>
      cases r4 with
      | nil => cases h
      | cons d rest3 =>
      rw [unescapeU, unescapeU4] at h
      rw [show (a :: b :: c2 :: d :: rest3) ++ t
          = a :: b :: c2 :: d :: (rest3 ++ t) from rfl]
      rw [unescapeU, unescapeU4]
      by_cases hhex : (isHexAny a && isHexAny b && isHexAny c2 && isHexAny d) = true
      · rw [if_pos hhex] at h ⊢
        by_cases hsur : 0xd800 ≤ hex4Val a b c2 d ∧ hex4Val a b c2 d ≤ 0xdbff
        · rw [if_pos hsur] at h ⊢
          by_cases htk : rest3.take 2 = ['\\', 'u']
          · rw [if_pos htk] at h
            cases rest3 with
            | nil => simp [List.take] at htk
            | cons x r5 =>
            cases r5 with
            | nil => simp [List.take] at htk
            | cons y rest3b =>
            obtain ⟨hx, hy⟩ : x = '\\' ∧ y = 'u' := by simpa [List.take] using htk
            simp only [List.cons_append]
            rw [if_pos (show (x :: y :: (rest3b ++ t)).take 2 = ['\\', 'u'] by
              simp [List.take, hx, hy])]
            simp only [List.drop_succ_cons, List.drop_zero] at h ⊢
            cases rest3b with
            | nil => cases h
            | cons a2 r6 =>
            cases r6 with
            | nil => cases h
            | cons b2 r7 =>
            cases r7 with
            | nil => cases h
            | cons c3 r8 =>
            cases r8 with
            | nil => cases h
            | cons d2 rest4 =>
            rw [unescapePairAt] at h
            rw [show (a2 :: b2 :: c3 :: d2 :: rest4) ++ t
                = a2 :: b2 :: c3 :: d2 :: (rest4 ++ t) from rfl]
            rw [unescapePairAt]
            by_cases hhex2 : (isHexAny a2 && isHexAny b2 && isHexAny c3 &&
                isHexAny d2) = true
            · rw [if_pos hhex2] at h ⊢
              by_cases hsur2 : 0xdc00 ≤ hex4Val a2 b2 c3 d2 ∧
                  hex4Val a2 b2 c3 d2 ≤ 0xdfff
              · rw [if_pos hsur2] at h ⊢
                simp only [Option.some.injEq, Prod.mk.injEq] at h
                obtain ⟨h1, h2⟩ := h
                subst h1
                subst h2
                rfl
              · rw [if_neg hsur2] at h ⊢
                simp only [Option.some.injEq, Prod.mk.injEq] at h
                obtain ⟨h1, h2⟩ := h
                subst h1
                subst h2
                rfl
            · rw [if_neg hhex2] at h
              cases h
          · rw [if_neg htk] at h
            simp only [Option.some.injEq, Prod.mk.injEq] at h
            obtain ⟨h1, h2⟩ := h
            subst h1
            subst h2
            have hcond : (rest3 ++ t).take 2 ≠ ['\\', 'u'] := by
              cases rest3 with
              | nil => exact absurd rfl hne
              | cons x r5 =>
                cases r5 with
                | nil =>
                  intro hc
                  simp [List.take] at hc
                  exact hnb (by rw [hc.1])
                | cons y rr =>
                  intro hc
                  simp [List.take] at hc
                  exact htk (by simp [List.take, hc.1, hc.2])
            rw [if_neg hcond]
        · rw [if_neg hsur] at h ⊢
          simp only [Option.some.injEq, Prod.mk.injEq] at h
          obtain ⟨h1, h2⟩ := h
          subst h1
          subst h2
          rfl
      · rw [if_neg hhex] at h
        cases h
    · rw [if_neg hu] at h ⊢
      cases hesc : escMap e with
      | none => rw [hesc] at h; cases h
      | some ch =>
        rw [hesc] at h
        simp only [Option.map, Option.some.injEq, Prod.mk.injEq] at h
        obtain ⟨h1, h2⟩ := h
        simp only [Option.map, Option.some.injEq, Prod.mk.injEq]
        exact ⟨h1, by rw [← h2]⟩

/-- Scanning a string is not disturbed by appending input: a successful
scan ends at the closing quote, inside the original buffer (the fuel may
grow by any amount). -/
theorem scanStringF_append {f : Nat} :
    ∀ {s o rem t : List Char} {k : Nat}, scanStringF f s = some (o, rem) →
      scanStringF (f + k) (s ++ t) = some (o, rem ++ t) := by
  induction f with
  | zero =>
    intro s o rem t k h
    rw [show scanStringF 0 s = none from rfl] at h
    cases h
  | succ f ih =>
    intro s o rem t k h
    rw [show f + 1 + k = (f + k) + 1 from by omega]
    cases s with
    | nil => cases h
    | cons c rest =>
      simp only [scanStringF] at h
      rw [List.cons_append]
      simp only [scanStringF]
      by_cases hq : c = '"'
      · rw [if_pos hq] at h ⊢
        cases h
        rfl
      · rw [if_neg hq] at h ⊢
        by_cases hb : c = '\\'
        · rw [if_pos hb] at h ⊢
          cases hu1 : unescape1 rest with
          | none => rw [hu1] at h; cases h
          | some p =>
            obtain ⟨cs, rest2⟩ := p
            rw [hu1] at h
            simp only [Option.bind] at h
            cases hrec : scanStringF f rest2 with
            | none => rw [hrec] at h; cases h
            | some q =>
              obtain ⟨o1, r1⟩ := q
              rw [hrec] at h
              simp only [Option.map, Option.some.injEq, Prod.mk.injEq] at h
              obtain ⟨h1, h2⟩ := h
              have hne : rest2 ≠ [] := by
                rintro rfl
                rw [scanStringF_nil] at hrec
                cases hrec
              have hnb : rest2 ≠ ['\\'] := by
                rintro rfl
                rw [scanStringF_single_backslash] at hrec
                cases hrec
              rw [unescape1_append hu1 hne hnb]
              simp only [Option.bind]
              rw [ih hrec]
              simp only [Option.map, Option.some.injEq, Prod.mk.injEq]
              exact ⟨by rw [← h1], by rw [← h2]⟩
        · rw [if_neg hb] at h ⊢
          by_cases hctl : c.toNat < 0x20
          · rw [if_pos hctl] at h
            cases h
          · rw [if_neg hctl] at h ⊢
            cases hrec : scanStringF f rest with
            | none => rw [hrec] at h; cases h
            | some p =>
              rw [hrec] at h
              obtain ⟨o1, r1⟩ := p
              simp only [Option.map, Option.some.injEq, Prod.mk.injEq] at h
              obtain ⟨h1, h2⟩ := h
              rw [ih hrec]
              simp only [Option.map, Option.some.injEq, Prod.mk.injEq]
              exact ⟨h1, by rw [← h2]⟩

/-- A take that returns a list of its full requested length stays inside
the buffer, so appending input moves neither the take nor the drop. -/
theorem take_append_keep {s : List Char} (t : List Char) {pre : List Char} {n : Nat}
    (h : s.take n = pre) (hl : pre.length = n) :
    (s ++ t).take n = pre ∧ (s ++ t).drop n = s.drop n ++ t := by
  have hle : n ≤ s.length := by
    have hlen := congrArg List.length h
    rw [List.length_take] at hlen
    omega
  constructor
  · rw [List.take_append_of_le_length hle, h]
  · rw [List.drop_append_of_le_length hle]

/-- `skipWs` through an append, when the left part retains a non-space
character. -/
theorem skipWs_append_cons {s : List Char} (t : List Char) {c : Char} {r : List Char}
    (h : skipWs s = c :: r) : skipWs (s ++ t) = c :: (r ++ t) := by
  induction s with
  | nil => cases h
  | cons a s2 ih =>
    rw [skipWs, List.dropWhile_cons] at h
    rw [List.cons_append, skipWs, List.dropWhile_cons]
    split at h
    · next ha =>
      rw [if_pos ha]
      exact ih h
    · next ha =>
      rw [if_neg ha]
      cases h
      rfl

/-- A non-whitespace head stops `skipWs` at once. -/
theorem skipWs_cons_of_not_ws {c : Char} {r : List Char} (hc : isJsonWs c = false) :
    skipWs (c :: r) = c :: r := by
  simp [skipWs, List.dropWhile_cons, hc]

/-- Append stability of the string scanner at its canonical fuel. -/
theorem scanString_append {s t o rem : List Char}
    (h : scanString s = some (o, rem)) :
    scanString (s ++ t) = some (o, rem ++ t) := by
  rw [scanString] at h
  rw [scanString, List.length_append]
  rw [show s.length + t.length + 1 = (s.length + 1) + t.length from by omega]
  exact scanStringF_append h

theorem scanValueF_zero (s : List Char) : scanValueF 0 s = none := rfl

theorem scanArrayF_zero (s : List Char) : scanArrayF 0 s = none := rfl

theorem scanArrayItemsF_zero (s : List Char) : scanArrayItemsF 0 s = none := rfl

theorem scanObjectF_zero (s : List Char) : scanObjectF 0 s = none := rfl

theorem scanObjectMembersF_zero (s : List Char) : scanObjectMembersF 0 s = none := rfl

/-- Append stability of the whole scanner family: a successful scan is
untouched — and its remainder extended — when input that cannot extend any
token (empty, or led by JSON whitespace) is appended, with any extra
fuel. -/
theorem scanStabAll (fuel : Nat) :
    (∀ s j rem (t : List Char) (k : Nat), wsLead t = true →
      scanValueF fuel s = some (j, rem) →
      scanValueF (fuel + k) (s ++ t) = some (j, rem ++ t)) ∧
    (∀ s j rem (t : List Char) (k : Nat), wsLead t = true →
      scanArrayF fuel s = some (j, rem) →
      scanArrayF (fuel + k) (s ++ t) = some (j, rem ++ t)) ∧
    (∀ s vs rem (t : List Char) (k : Nat), wsLead t = true →
      scanArrayItemsF fuel s = some (vs, rem) →
      scanArrayItemsF (fuel + k) (s ++ t) = some (vs, rem ++ t)) ∧
    (∀ s j rem (t : List Char) (k : Nat), wsLead t = true →
      scanObjectF fuel s = some (j, rem) →
      scanObjectF (fuel + k) (s ++ t) = some (j, rem ++ t)) ∧
    (∀ s ms rem (t : List Char) (k : Nat), wsLead t = true →
      scanObjectMembersF fuel s = some (ms, rem) →
      scanObjectMembersF (fuel + k) (s ++ t) = some (ms, rem ++ t)) := by
  induction fuel with
  | zero =>
    refine ⟨?_, ?_, ?_, ?_, ?_⟩
    · intro s j rem t k hws h; rw [scanValueF_zero] at h; cases h
    · intro s j rem t k hws h; rw [scanArrayF_zero] at h; cases h
    · intro s vs rem t k hws h; rw [scanArrayItemsF_zero] at h; cases h
    · intro s j rem t k hws h; rw [scanObjectF_zero] at h; cases h
    · intro s ms rem t k hws h; rw [scanObjectMembersF_zero] at h; cases h
  | succ fuel ih =>
    obtain ⟨ihV, ihA, ihI, ihO, ihM⟩ := ih
    refine ⟨?_, ?_, ?_, ?_, ?_⟩
    · -- values
      intro s j rem t k hws h
      cases s with
      | nil => rw [scanValueF_nil] at h; cases h
      | cons c rest =>
        rw [show fuel + 1 + k = (fuel + k) + 1 from by omega, List.cons_append]
        simp only [scanValueF] at h ⊢
        by_cases h1 : c = '"'
        · rw [if_pos h1] at h ⊢
          cases hsc : scanString rest with
          | none => rw [hsc] at h; cases h
          | some p =>
            obtain ⟨o, r⟩ := p
            rw [hsc] at h
            rw [scanString_append hsc]
            simp only [Option.map, Option.some.injEq, Prod.mk.injEq] at h ⊢
            exact ⟨h.1, by rw [h.2]⟩
        · rw [if_neg h1] at h ⊢
          by_cases h2 : c = '\x7b'
          · rw [if_pos h2] at h ⊢
            exact ihO rest j rem t k hws h
          · rw [if_neg h2] at h ⊢
            by_cases h3 : c = '['
            · rw [if_pos h3] at h ⊢
              exact ihA rest j rem t k hws h
            · rw [if_neg h3] at h ⊢
              by_cases h4 : c = 'n'
              · rw [if_pos h4] at h ⊢
                by_cases htk : rest.take 3 = ['u', 'l', 'l']
                · rw [if_pos htk] at h
                  cases h
                  obtain ⟨hta, hdr⟩ := take_append_keep t htk rfl
                  rw [if_pos hta, hdr]
                · rw [if_neg htk] at h
                  cases h
              · rw [if_neg h4] at h ⊢
                by_cases h5 : c = 't'
                · rw [if_pos h5] at h ⊢
                  by_cases htk : rest.take 3 = ['r', 'u', 'e']
                  · rw [if_pos htk] at h
                    cases h
                    obtain ⟨hta, hdr⟩ := take_append_keep t htk rfl
                    rw [if_pos hta, hdr]
                  · rw [if_neg htk] at h
                    cases h
                · rw [if_neg h5] at h ⊢
                  by_cases h6 : c = 'f'
                  · rw [if_pos h6] at h ⊢
                    by_cases htk : rest.take 4 = ['a', 'l', 's', 'e']
                    · rw [if_pos htk] at h
                      cases h
                      obtain ⟨hta, hdr⟩ := take_append_keep t htk rfl
                      rw [if_pos hta, hdr]
                    · rw [if_neg htk] at h
                      cases h
                  · rw [if_neg h6] at h ⊢
                    by_cases h7 : c = 'N'
                    · rw [if_pos h7] at h ⊢
                      by_cases htk : rest.take 2 = ['a', 'N']
                      · rw [if_pos htk] at h
                        cases h
                        obtain ⟨hta, hdr⟩ := take_append_keep t htk rfl
                        rw [if_pos hta, hdr]
                      · rw [if_neg htk] at h
                        cases h
                    · rw [if_neg h7] at h ⊢
                      by_cases h8 : c = 'I'
                      · rw [if_pos h8] at h ⊢
                        by_cases htk : rest.take 7 = ['n', 'f', 'i', 'n', 'i', 't', 'y']
                        · rw [if_pos htk] at h
                          cases h
                          obtain ⟨hta, hdr⟩ := take_append_keep t htk rfl
                          rw [if_pos hta, hdr]
                        · rw [if_neg htk] at h
                          cases h
                      · rw [if_neg h8] at h ⊢
                        cases hnum : scanNumber (c :: rest) with
                        | some p =>
                          obtain ⟨lex, r⟩ := p
                          rw [hnum] at h
                          have happ := scanNumber_append hnum hws
                          rw [List.cons_append] at happ
                          simp only [happ]
                          simp only [Option.some.injEq, Prod.mk.injEq] at h ⊢
                          exact ⟨h.1, by rw [h.2]⟩
                        | none =>
                          rw [hnum] at h
                          have hnone := scanNumber_none_append t hnum hws
                          rw [List.cons_append] at hnone
                          simp only [hnone]
                          replace h : (if c = '-' ∧
                              rest.take 8 = ['I', 'n', 'f', 'i', 'n', 'i', 't', 'y'] then
                              some (Json.num ('-' :: ['I', 'n', 'f', 'i', 'n', 'i', 't', 'y']),
                                rest.drop 8)
                            else none) = some (j, rem) := h
                          by_cases hcond : c = '-' ∧
                              rest.take 8 = ['I', 'n', 'f', 'i', 'n', 'i', 't', 'y']
                          · rw [if_pos hcond] at h
                            cases h
                            obtain ⟨hta, hdr⟩ := take_append_keep t hcond.2 rfl
                            rw [if_pos ⟨hcond.1, hta⟩, hdr]
                          · rw [if_neg hcond] at h
                            cases h
    · -- arrays
      intro s j rem t k hws h
      rw [show fuel + 1 + k = (fuel + k) + 1 from by omega]
      simp only [scanArrayF] at h ⊢
      cases hsw : skipWs s with
      | nil =>
        rw [hsw, scanArrayItemsF_nil] at h
        cases h
      | cons c r =>
        simp only [hsw] at h
        simp only [skipWs_append_cons t hsw]
        by_cases hc : c = ']'
        · rw [if_pos hc] at h ⊢
          cases h
          rfl
        · rw [if_neg hc] at h ⊢
          cases hitems : scanArrayItemsF fuel (c :: r) with
          | none => rw [hitems] at h; cases h
          | some p =>
            obtain ⟨vs, r2⟩ := p
            rw [hitems] at h
            have hstep := ihI (c :: r) vs r2 t k hws hitems
            rw [List.cons_append] at hstep
            rw [hstep]
            simp only [Option.map, Option.some.injEq, Prod.mk.injEq] at h ⊢
            exact ⟨h.1, by rw [h.2]⟩
    · -- array items
      intro s vs rem t k hws h
      rw [show fuel + 1 + k = (fuel + k) + 1 from by omega]
      simp only [scanArrayItemsF] at h ⊢
      cases hval : scanValueF fuel s with
      | none => rw [hval] at h; cases h
      | some p =>
        obtain ⟨v, r⟩ := p
        simp only [hval] at h
        simp only [ihV s v r t k hws hval]
        cases hsw : skipWs r with
        | nil => rw [hsw] at h; cases h
        | cons c r2 =>
          simp only [hsw] at h
          simp only [skipWs_append_cons t hsw]
          by_cases hc : c = ']'
          · rw [if_pos hc] at h ⊢
            cases h
            rfl
          · rw [if_neg hc] at h ⊢
            by_cases hcm : c = ','
            · rw [if_pos hcm] at h ⊢
              cases hrec : scanArrayItemsF fuel (skipWs r2) with
              | none => rw [hrec] at h; cases h
              | some q =>
                obtain ⟨vs2, r3⟩ := q
                rw [hrec] at h
                cases hsw2 : skipWs r2 with
                | nil => rw [hsw2, scanArrayItemsF_nil] at hrec; cases hrec
                | cons c2 r4 =>
                  have hstep := ihI (skipWs r2) vs2 r3 t k hws hrec
                  have hrw : skipWs (r2 ++ t) = skipWs r2 ++ t := by
                    rw [skipWs_append_cons t hsw2, hsw2, List.cons_append]
                  rw [hrw, hstep]
                  simp only [Option.map, Option.some.injEq, Prod.mk.injEq] at h ⊢
                  exact ⟨h.1, by rw [h.2]⟩
            · rw [if_neg hcm] at h
              cases h
    · -- objects
      intro s j rem t k hws h
      rw [show fuel + 1 + k = (fuel + k) + 1 from by omega]
      simp only [scanObjectF] at h ⊢
      cases hsw : skipWs s with
      | nil =>
        rw [hsw, scanObjectMembersF_nil] at h
        cases h
      | cons c r =>
        simp only [hsw] at h
        simp only [skipWs_append_cons t hsw]
        by_cases hc : c = '\x7d'
        · rw [if_pos hc] at h ⊢
          cases h
          rfl
        · rw [if_neg hc] at h ⊢
          cases hmem : scanObjectMembersF fuel (c :: r) with
          | none => rw [hmem] at h; cases h
          | some p =>
            obtain ⟨ms, r2⟩ := p
            rw [hmem] at h
            have hstep := ihM (c :: r) ms r2 t k hws hmem
            rw [List.cons_append] at hstep
            rw [hstep]
            simp only [Option.map, Option.some.injEq, Prod.mk.injEq] at h ⊢
            exact ⟨h.1, by rw [h.2]⟩
    · -- object members
      intro s ms rem t k hws h
      cases s with
      | nil => rw [scanObjectMembersF_nil] at h; cases h
      | cons c0 r =>
        rw [show fuel + 1 + k = (fuel + k) + 1 from by omega, List.cons_append]
        simp only [scanObjectMembersF] at h ⊢
        by_cases hq : c0 = '"'
        · rw [if_pos hq] at h ⊢
          cases hstr : scanString r with
          | none => rw [hstr] at h; cases h
          | some p =>
            obtain ⟨kk, r1⟩ := p
            simp only [hstr] at h
            simp only [scanString_append hstr]
            cases hsw1 : skipWs r1 with
            | nil => rw [hsw1] at h; cases h
            | cons c1 r2 =>
              simp only [hsw1] at h
              simp only [skipWs_append_cons t hsw1]
              by_cases hcol : c1 = ':'
              · rw [if_pos hcol] at h ⊢
                cases hval : scanValueF fuel (skipWs r2) with
                | none => rw [hval] at h; cases h
                | some pv =>
                  obtain ⟨v, r3⟩ := pv
                  simp only [hval] at h
                  cases hsw2 : skipWs r2 with
                  | nil => rw [hsw2, scanValueF_nil] at hval; cases hval
                  | cons cA rA =>
                    have hvstep := ihV (skipWs r2) v r3 t k hws hval
                    have hrw2 : skipWs (r2 ++ t) = skipWs r2 ++ t := by
                      rw [skipWs_append_cons t hsw2, hsw2, List.cons_append]
                    rw [hrw2]
                    simp only [hvstep]
                    cases hsw3 : skipWs r3 with
                    | nil => rw [hsw3] at h; cases h
                    | cons c2 r4 =>
                      simp only [hsw3] at h
                      simp only [skipWs_append_cons t hsw3]
                      by_cases hcb : c2 = '\x7d'
                      · rw [if_pos hcb] at h ⊢
                        cases h
                        rfl
                      · rw [if_neg hcb] at h ⊢
                        by_cases hcm : c2 = ','
                        · rw [if_pos hcm] at h ⊢
                          cases hrec : scanObjectMembersF fuel (skipWs r4) with
                          | none => rw [hrec] at h; cases h
                          | some q =>
                            obtain ⟨ms2, r5⟩ := q
                            rw [hrec] at h
                            cases hsw4 : skipWs r4 with
                            | nil => rw [hsw4, scanObjectMembersF_nil] at hrec; cases hrec
                            | cons c3 r6 =>
                              have hstep := ihM (skipWs r4) ms2 r5 t k hws hrec
                              have hrw4 : skipWs (r4 ++ t) = skipWs r4 ++ t := by
                                rw [skipWs_append_cons t hsw4, hsw4, List.cons_append]
                              rw [hrw4, hstep]
                              simp only [Option.map, Option.some.injEq, Prod.mk.injEq] at h ⊢
                              exact ⟨h.1, by rw [h.2]⟩
                        · rw [if_neg hcm] at h
                          cases h
              · rw [if_neg hcol] at h
                cases h
        · rw [if_neg hq] at h
          cases h

/-- Append stability of the value scanner at canonical fuel. -/
theorem scanValue_append {s t : List Char} {j : Json} {rem : List Char}
    (hws : wsLead t = true) (h : scanValueF (scanFuel s) s = some (j, rem)) :
    scanValueF (scanFuel (s ++ t)) (s ++ t) = some (j, rem ++ t) := by
  have hstep := (scanStabAll (scanFuel s)).1 s j rem t (2 * t.length) hws h
  have hfe : scanFuel s + 2 * t.length = scanFuel (s ++ t) := by
    simp only [scanFuel, List.length_append]
    omega
  rw [hfe] at hstep
  exact hstep

/-- A successful value scan never starts at whitespace: every dispatch
branch of `_scan_once`, the number regex included, rejects a whitespace
first character. -/
theorem scanValue_head_not_ws {f : Nat} {s : List Char} {j : Json} {rem : List Char}
    (h : scanValueF f s = some (j, rem)) :
    ∃ c r, s = c :: r ∧ isJsonWs c = false := by
  cases f with
  | zero => rw [scanValueF_zero] at h; cases h
  | succ f =>
    cases s with
    | nil => rw [scanValueF_nil] at h; cases h
    | cons c rest =>
      refine ⟨c, rest, rfl, ?_⟩
      by_contra hcn
      rw [Bool.not_eq_false] at hcn
      simp only [scanValueF] at h
      rw [if_neg (ws_ne hcn (by decide)), if_neg (ws_ne hcn (by decide)),
        if_neg (ws_ne hcn (by decide)), if_neg (ws_ne hcn (by decide)),
        if_neg (ws_ne hcn (by decide)), if_neg (ws_ne hcn (by decide)),
        if_neg (ws_ne hcn (by decide)), if_neg (ws_ne hcn (by decide))] at h
      have hnum : scanNumber (c :: rest) = none := by
        rw [scanNumber, if_neg (ws_ne hcn (by decide)), scanNumTail, scanNumInt,
          if_neg (ws_ne hcn (by decide)), if_neg (by simp [ws_not_digit hcn])]
      simp only [hnum] at h
      rw [if_neg (fun hcon => ws_ne hcn (by decide) hcon.1)] at h
      cases h

/-- The probe never reports more characters than the buffer holds. -/
theorem get_obj_length_le {s : List Char} {n : Nat}
    (h : get_obj_length s = some n) : n ≤ s.length := by
  rw [get_obj_length] at h
  cases hv : scanValueF (scanFuel s) (skipWs s) with
  | none => rw [hv] at h; cases h
  | some p =>
    obtain ⟨jv, rem⟩ := p
    rw [hv] at h
    replace h : some (s.length - (skipWs rem).length) = some n := h
    cases h
    omega

/-- Iterated probing never re-consumes bytes: the consumed lengths sum to
at most the buffer length. -/
theorem probeSteps_sum_le (k : Nat) : ∀ s : List Char, (probeSteps k s).sum ≤ s.length := by
  induction k with
  | zero => intro s; simp [probeSteps]
  | succ k ih =>
    intro s
    cases hg : get_obj_length s with
    | none => simp [probeSteps, hg]
    | some n =>
      have h1 := get_obj_length_le hg
      have h2 := ih (s.drop n)
      simp only [probeSteps, hg, List.sum_cons]
      rw [List.length_drop] at h2
      omega

/-- The probe fails exactly when the value scanner fails at the first
non-whitespace position. -/
theorem get_obj_length_none_iff (s : List Char) :
    get_obj_length s = none ↔ scanValueF (scanFuel s) (skipWs s) = none := by
  cases hv : scanValueF (scanFuel s) (skipWs s) with
  | none => simp [get_obj_length, hv]
  | some p =>
    obtain ⟨jv, rem⟩ := p
    simp [get_obj_length, hv]

/-- A nonempty all-whitespace run keeps `wsLead` over an append; an empty
run does too when nothing follows. -/
theorem wsLead_append_of_all {w : List Char} (hw : w.all isJsonWs = true)
    (t : List Char) (hT : w = [] → t = []) : wsLead (w ++ t) = true := by
  cases w with
  | nil => rw [hT rfl]; rfl
  | cons c r =>
    rw [List.cons_append, wsLead, List.headD_cons]
    simp only [List.all_cons, Bool.and_eq_true] at hw
    exact hw.1

/-- `sepOk` is preserved on tails. -/
theorem sepOk_tail {p : List Char × List Char} {rest : List (List Char × List Char)}
    (h : sepOk (p :: rest) = true) : sepOk rest = true := by
  cases rest with
  | nil => rfl
  | cons q rest2 =>
    simp only [sepOk, Bool.and_eq_true] at h
    exact h.2

/-- Under `sepOk`, an empty separator can only close the chain. -/
theorem sepOk_head_empty {v w : List Char} {rest : List (List Char × List Char)}
    (h : sepOk ((v, w) :: rest) = true) (hw : w = []) : rest = [] := by
  cases rest with
  | nil => rfl
  | cons q rest2 =>
    subst hw
    simp only [sepOk] at h
    simp at h

/-- The length of a chain is the sum of its link lengths. -/
theorem chainJoin_length (l : List (List Char × List Char)) :
    (chainJoin l).length = (l.map (fun p => p.1.length + p.2.length)).sum := by
  induction l with
  | nil => rfl
  | cons p rest ih =>
    have hc : chainJoin (p :: rest) = (p.1 ++ p.2) ++ chainJoin rest := rfl
    rw [hc, List.length_append, List.length_append, List.map_cons, List.sum_cons, ih]

/-- On a whitespace-separated chain of complete JSON values the probe
consumes, at every step, exactly one value together with its trailing
separator. -/
theorem probe_chain : ∀ l : List (List Char × List Char),
    (∀ p ∈ l, jsonValueExact p.1 ∧ p.2.all isJsonWs = true) → sepOk l = true →
    probeSteps l.length (chainJoin l) = l.map (fun p => p.1.length + p.2.length) := by
  intro l
  induction l with
  | nil => intro _ _; rfl
  | cons p rest ih =>
    intro hv hsep
    obtain ⟨v, w⟩ := p
    obtain ⟨⟨j, hj⟩, hw⟩ := hv (v, w) (List.mem_cons_self _ _)
    have hTnil : w = [] → chainJoin rest = [] := by
      intro hwnil
      rw [sepOk_head_empty hsep hwnil]
      rfl
    have hws : wsLead (w ++ chainJoin rest) = true := wsLead_append_of_all hw _ hTnil
    have hstep := scanValue_append hws hj
    rw [List.nil_append] at hstep
    obtain ⟨c0, r0, hv0, hc0⟩ := scanValue_head_not_ws hj
    replace hv0 : v = c0 :: r0 := hv0
    have hcj : chainJoin ((v, w) :: rest) = v ++ (w ++ chainJoin rest) := by
      rw [show chainJoin ((v, w) :: rest) = (v ++ w) ++ chainJoin rest from rfl,
        List.append_assoc]
    have hskip : skipWs (chainJoin ((v, w) :: rest)) = chainJoin ((v, w) :: rest) := by
      rw [hcj, hv0, List.cons_append]
      exact skipWs_cons_of_not_ws hc0
    have hskipT : skipWs (w ++ chainJoin rest) = chainJoin rest := by
      rw [skipWs, dropWhile_append_of_all hw]
      cases hrest : rest with
      | nil => rfl
      | cons q rest2 =>
        obtain ⟨v2, w2⟩ := q
        obtain ⟨⟨j2, hj2⟩, hw2⟩ := hv (v2, w2)
          (by rw [hrest]; exact List.mem_cons_of_mem _ (List.mem_cons_self _ _))
        obtain ⟨c2, r2, hv2, hc2⟩ := scanValue_head_not_ws hj2
        replace hv2 : v2 = c2 :: r2 := hv2
        rw [show chainJoin ((v2, w2) :: rest2) = (v2 ++ w2) ++ chainJoin rest2 from rfl,
          hv2, List.cons_append, List.cons_append]
        exact skipWs_cons_of_not_ws hc2
    have hgol : get_obj_length (chainJoin ((v, w) :: rest)) = some (v.length + w.length) := by
      rw [get_obj_length, hskip, hcj]
      simp only [hstep, hskipT]
      simp only [Option.some.injEq, List.length_append]
      omega
    have hdrop : (chainJoin ((v, w) :: rest)).drop (v.length + w.length) = chainJoin rest := by
      rw [show chainJoin ((v, w) :: rest) = (v ++ w) ++ chainJoin rest from rfl,
        show v.length + w.length = (v ++ w).length from (List.length_append v w).symm]
      exact List.drop_left _ _
    simp only [List.length_cons, List.map_cons]
    simp only [probeSteps, hgol]
    rw [hdrop, ih (fun q hq => hv q (List.mem_cons_of_mem _ hq)) (sepOk_tail hsep)]

/-! ## Claim theorems -/

/-- C1: decoding the combined buffer
`"4:[null,null,null,{"pro":{"facebookUrl":"https://fb.com/x","teamMembers":[{"name":"Ann Lee","title":"Planner"}]}}]"`
with the segment framer yields exactly one frame, whose id is `"4"`, and
running the field extractor on that one-frame list yields exactly the
record `{"facebookUrl": "https://fb.com/x", "teamMembers": {"Ann Lee": "Planner"}}`. -/
theorem c1_example_roundtrip :
    decodeCombined c1Buffer = Except.ok [c1Frame] ∧
    c1Frame.hex_string = ['4'] ∧
    (extract_data_from_scripts [c1Frame]).1 =
      [(("facebookUrl").toList, .j (.str (("https://fb.com/x").toList))),
       (("teamMembers").toList,
        .tdict [(.str (("Ann Lee").toList), .str (("Planner").toList))])] :=
  ⟨rfl, rfl, rfl⟩

/-- C8: decoding an empty combined buffer yields an empty frame list (the
hex-id run is empty, the normal termination), and extracting from an empty
frame list yields an empty record. -/
theorem c8_empty_input :
    decodeCombined [] = Except.ok [] ∧ (extract_data_from_scripts []).1 = [] :=
  ⟨rfl, rfl⟩

/-- C3 counterexample: on the buffer `"aT"` the framer's tag scanner
returns `"T"` although the `'T'` is seen mid-scan after a collected
character; the claim's reading (the collected run `"a"`) disagrees. -/
theorem c3_counterexample :
    get_next_data_type_string (['a', 'T']) = ['T'] ∧
    dataTypeClaimC3 (['a', 'T']) = ['a'] ∧
    get_next_data_type_string (['a', 'T']) ≠ dataTypeClaimC3 (['a', 'T']) :=
  ⟨rfl, rfl, by decide⟩

/-- C3 amended: the tag is `"T"` whenever a `'T'` occurs anywhere in the
run scanned before the first JSON-start character — not only when it is the
first character, and discarding any characters collected before it;
otherwise the tag is the (possibly empty) collected run, and the stopping
character is not consumed. -/
theorem c3_amended_tag_scan (s : List Char) :
    get_next_data_type_string s =
      if 'T' ∈ s.takeWhile (fun c => !isTagStop c) then ['T']
      else s.takeWhile isTagChar :=
  get_next_data_type_eq s

/-- C10 counterexample: in `"0:abT}"` the framer reads a `"T"` tag (the
`'T'` of `"abT}"` is seen mid-scan) and no hex run follows that `'T'`,
yet the framer does not stop: the hex run is read at position 1 of the
remainder (the `'b'`), and a frame is emitted. -/
theorem c10_counterexample :
    get_next_data_type_string (c10Buffer.drop 2) = ['T'] ∧
    get_next_hex_string (c10Buffer.drop 5) = [] ∧
    decodeCombined c10Buffer = Except.ok [c10Frame] ∧
    ([c10Frame] : List Frame) ≠ [] :=
  ⟨rfl, rfl, rfl, by simp⟩

/-- C10 amended: whenever the framer reads a `"T"` type tag and the maximal
hexadecimal run starting at the *second character* of the post-delimiter
remainder (the position the framer actually probes — the character after
the `'T'` only when the `'T'` is the first character) is empty, the framer
stops the decode loop, returning the frames accumulated so far without
error and without emitting a frame for the incomplete record. -/
theorem c10_amended_stop (fuel : Nat) (other0 : List Char)
    (h1 : get_next_hex_string other0 ≠ [])
    (h2 : framerTag other0 = ['T'])
    (h3 : get_next_hex_string ((framerOther1 other0).drop 1) = []) :
    decodeLoop (fuel + 1) other0 = Except.ok [] := by
  have h1' : (get_next_hex_string other0).isEmpty = false := by
    simpa [List.isEmpty_iff] using h1
  rw [framerTag, framerOther1] at h2
  rw [framerOther1] at h3
  have hstep : decodeStep other0 = .stop := by
    unfold decodeStep
    simp only [h1', Bool.false_eq_true, if_false, h2, h3]
    simp
  have hloop : decodeLoop (fuel + 1) other0 =
      match decodeStep other0 with
      | .stop => Except.ok []
      | .fail => Except.error ()
      | .frame f rest =>
        if rest.isEmpty then Except.ok [f]
        else (decodeLoop fuel rest).map (f :: ·) := rfl
  rw [hloop, hstep]

/-- Witness for `c10_amended_stop` at the buffer `"1:T}"`. -/
theorem c10_amended_stop_witness :
    decodeLoop 1 (("1:T\x7d").toList) = Except.ok [] :=
  c10_amended_stop 0 (("1:T\x7d").toList) (by decide) (by decide) (by decide)

/-- C2 counterexample: in `"1:T3,a7:{"__typename":"A"}"` the `"T"` frame's
declared length (3) undershoots the object beginning `{"__typename` (at
position 8), yet the next emitted frame does not start at the opening brace
minus 2: the decoder restarts at the colon-signature's position minus 2 —
the brace minus 3 — so the next frame's id is `"a7"`, not the `"7"` the
claim's offset would produce. -/
theorem c2_counterexample :
    decodeCombined c2Buffer = Except.ok [c2FrameT, c2FrameNext] ∧
    findSubstr resyncSigClaimC2 c2Buffer = some 8 ∧
    c2FrameNext.hex_string ≠ get_next_hex_string (c2Buffer.drop (8 - 2)) :=
  ⟨rfl, rfl, by decide⟩

/-- C2 amended: the first resync signature carries a leading colon
(`':{"__typename'`); when it (or, failing that, `'["$","$L1f",'`) occurs in
the concatenation of the sliced value with the next 20 characters of the
remaining buffer, the framer resets the remaining buffer to the signature's
first position in the pre-slice buffer stepped back 2 characters (clamped
at 0) — for the colon signature that is the object's opening brace minus 3,
not minus 2; if neither signature is found the cursor is unchanged. -/
theorem c2_amended_resync (backup : List Char) (n : Nat) :
    (∀ p, findSubstr resyncSigT backup = some p →
      p + resyncSigT.length ≤ n + 20 →
      applyResync backup n = backup.drop (p - 2)) ∧
    (occursIn resyncSigT (backup.take (n + 20)) = false →
      ∀ p, findSubstr resyncSigArr backup = some p →
        p + resyncSigArr.length ≤ n + 20 →
        applyResync backup n = backup.drop (p - 2)) ∧
    (occursIn resyncSigT (backup.take (n + 20)) = false →
      occursIn resyncSigArr (backup.take (n + 20)) = false →
      applyResync backup n = backup.drop n) := by
  have hwin : backup.take n ++ (backup.drop n).take 20 = backup.take (n + 20) :=
    take_append_drop_take backup n 20
  have hocc_of : ∀ (sig : List Char) (p : Nat), findSubstr sig backup = some p →
      p + sig.length ≤ n + 20 → occursIn sig (backup.take (n + 20)) = true := by
    intro sig p hf hle
    have hpre : sig.isPrefixOf (backup.drop p) := findSubstr_prefix_drop hf
    have hpre2 : sig.isPrefixOf ((backup.take (n + 20)).drop p) := by
      rw [List.drop_take]
      exact prefix_take_of_le hpre (by omega)
    exact occursIn_of_prefix_drop hpre2
  refine ⟨?_, ?_, ?_⟩
  · intro p hf hle
    have hocc := hocc_of resyncSigT p hf hle
    have hfind : List.find? (fun c => occursIn c (backup.take (n + 20)))
        [resyncSigT, resyncSigArr] = some resyncSigT := by simp [hocc]
    simp only [applyResync, hwin, resyncChecks, hfind, hf]
    congr 1
    omega
  · intro hT p hf hle
    have hocc := hocc_of resyncSigArr p hf hle
    have hfind : List.find? (fun c => occursIn c (backup.take (n + 20)))
        [resyncSigT, resyncSigArr] = some resyncSigArr := by simp [hocc, hT]
    simp only [applyResync, hwin, resyncChecks, hfind, hf]
    congr 1
    omega
  · intro hT hA
    have hfind : List.find? (fun c => occursIn c (backup.take (n + 20)))
        [resyncSigT, resyncSigArr] = none := by simp [hT, hA]
    simp only [applyResync, hwin, resyncChecks, hfind]

/-- Witness for `c2_amended_resync`: the colon signature in `c2Backup` sits
at position 2, so the cursor resets to position 0; on a signature-free
buffer the cursor is unchanged. -/
theorem c2_amended_resync_witness :
    applyResync c2Backup 3 = c2Backup.drop 0 ∧
    applyResync (("ab").toList) 1 = (("ab").toList).drop 1 :=
  ⟨(c2_amended_resync c2Backup 3).1 2 (by decide) (by decide),
   (c2_amended_resync (("ab").toList) 1).2.2 (by decide) (by decide)⟩

/-- C4: for every frame the framer decodes with a declared length (the
`"T"` case), the probe is always attempted — a successful probe's consumed
length overrides the declared length and a probe failure falls back to it
(the `getD` in the first conjunct folds both cases); with no declared
length a successful probe's result is the frame's length, and a probe
failure is fatal: the decode aborts with an error. -/
theorem c4_probe_policy (other0 : List Char) (fuel : Nat)
    (hhex : get_next_hex_string other0 ≠ []) :
    (∀ d, framerDeclared other0 = some d →
      ∃ rest, decodeStep other0 = StepOut.frame
        ⟨get_next_hex_string other0, framerTag other0,
         (get_obj_length (framerBody other0)).getD d,
         Json.str ((framerBody other0).take
           ((get_obj_length (framerBody other0)).getD d))⟩ rest) ∧
    (framerTag other0 ≠ ['T'] →
      (∀ m, get_obj_length (framerBody other0) = some m →
        ∃ rest, decodeStep other0 = StepOut.frame
          ⟨get_next_hex_string other0, framerTag other0, m,
           Json.str ((framerBody other0).take m)⟩ rest) ∧
      (get_obj_length (framerBody other0) = none →
        decodeLoop (fuel + 1) other0 = Except.error ())) := by
  have hhex' : (get_next_hex_string other0).isEmpty = false := by
    simpa [List.isEmpty_iff] using hhex
  have hchar := decodeStep_char other0 hhex'
  constructor
  · intro d hd
    rw [framerDeclared] at hd
    by_cases hT : framerTag other0 = ['T']
    · rw [if_pos hT] at hd
      by_cases hlh : (get_next_hex_string ((framerOther1 other0).drop 1)).isEmpty
      · simp only [hlh, if_true] at hd
        cases hd
      · simp only [hlh, Bool.false_eq_true, if_false, Option.some.injEq] at hd
        subst hd
        rw [hchar]
        simp only [hT, if_true, hlh, Bool.false_eq_true, if_false]
        exact ⟨_, rfl⟩
    · rw [if_neg hT] at hd
      cases hd
  · intro hT
    constructor
    · intro m hm
      rw [hchar]
      simp only [hT, if_false, hm]
      exact ⟨_, rfl⟩
    · intro hm
      have hstep : decodeStep other0 = StepOut.fail := by
        rw [hchar]
        simp [hT, hm]
      have hloop : decodeLoop (fuel + 1) other0 =
          match decodeStep other0 with
          | .stop => Except.ok []
          | .fail => Except.error ()
          | .frame f rest =>
            if rest.isEmpty then Except.ok [f]
            else (decodeLoop fuel rest).map (f :: ·) := rfl
      rw [hloop, hstep]

/-- C5 counterexample: decoding succeeds on `"x"` with an empty frame list,
leaving the nonempty buffer uncovered; and on the resync buffer `c2Buffer`
the two emitted frames cannot partition the buffer (the resync rewinds the
cursor, so their regions overlap: they total 27 characters against the
buffer's 26). -/
theorem c5_counterexample :
    (decodeCombined ['x'] = Except.ok [] ∧ ¬ FramesPartition ['x'] []) ∧
    (decodeCombined c2Buffer = Except.ok [c2FrameT, c2FrameNext] ∧
      ¬ FramesPartition c2Buffer [c2FrameT, c2FrameNext]) := by
  refine ⟨⟨rfl, ?_⟩, ⟨rfl, ?_⟩⟩
  · rintro ⟨delims, hlen, heq⟩
    simp at heq
  · rintro ⟨delims, hlen, heq⟩
    simp only [List.length_cons, List.length_nil] at hlen
    match delims, hlen with
    | [d1, d2], _ =>
      have hlength := congrArg List.length heq
      simp only [List.zipWith_cons_cons, List.zipWith_nil_right, List.zipWith_nil_left,
        List.flatten, List.append_nil, List.length_append, frameRegion,
        c2FrameT, c2FrameNext] at hlength
      simp [c2Buffer] at hlength

/-- C5 amended: when decoding succeeds and no emitted frame is
`"T"`-tagged, the frames' consumed regions (id, one delimiter character,
tag, value) are adjacent, disjoint, and cover an initial segment of the
buffer in order, with each frame's value exactly the final piece of its
region; decoding may stop early, leaving an uncovered residue on which the
step immediately stops (so full coverage can fail, and `"T"`-frame resync
can additionally rewind the cursor and re-consume earlier bytes). -/
theorem c5_amended_partition (fuel : Nat) :
    ∀ (s : List Char) (frames : List Frame),
      decodeLoop fuel s = Except.ok frames →
      (∀ f ∈ frames, f.data_type ≠ ['T']) →
      ∃ (delims : List Char) (residue : List Char),
        delims.length = frames.length ∧
        s = (List.zipWith frameRegion frames delims).flatten ++ residue ∧
        decodeStep residue = StepOut.stop := by
  induction fuel with
  | zero => intro s frames h; cases h
  | succ fuel ih =>
    intro s frames hok hnT
    have hloop : decodeLoop (fuel + 1) s =
        match decodeStep s with
        | .stop => Except.ok []
        | .fail => Except.error ()
        | .frame f rest =>
          if rest.isEmpty then Except.ok [f]
          else (decodeLoop fuel rest).map (f :: ·) := rfl
    rw [hloop] at hok
    cases hstep : decodeStep s with
    | stop =>
      rw [hstep] at hok
      replace hok : Except.ok (ε := Unit) ([] : List Frame) = Except.ok frames := hok
      cases hok
      exact ⟨[], s, rfl, by simp, hstep⟩
    | fail =>
      rw [hstep] at hok
      replace hok : Except.error (α := List Frame) () = Except.ok frames := hok
      cases hok
    | frame f rest =>
      rw [hstep] at hok
      replace hok : (if rest.isEmpty then Except.ok [f]
          else (decodeLoop fuel rest).map (f :: ·)) = Except.ok frames := hok
      by_cases hre : rest.isEmpty
      · rw [if_pos hre] at hok
        cases hok
        have hrest : rest = [] := by simpa [List.isEmpty_iff] using hre
        obtain ⟨d, hd⟩ := decodeStep_frame_decomp hstep
          (hnT f (List.mem_singleton_self f))
        refine ⟨[d], [], rfl, ?_, rfl⟩
        rw [hd, hrest]
        simp
      · rw [if_neg hre] at hok
        cases hrec : decodeLoop fuel rest with
        | error e => rw [hrec] at hok; cases hok
        | ok frames' =>
          rw [hrec] at hok
          simp only [Except.map, Except.ok.injEq] at hok
          subst hok
          obtain ⟨delims', residue, hlen', hcover, hstop⟩ :=
            ih rest frames' hrec (fun g hg => hnT g (List.mem_cons_of_mem f hg))
          obtain ⟨d, hd⟩ := decodeStep_frame_decomp hstep
            (hnT f (List.mem_cons_self f frames'))
          refine ⟨d :: delims', residue, by simp [hlen'], ?_, hstop⟩
          rw [hd, hcover]
          simp [List.append_assoc]

/-- Witness for `c5_amended_partition` on the buffer `"1:{},"`: one frame
region `1:{}` plus the residue `","`. -/
theorem c5_amended_partition_witness :
    ∃ (delims : List Char) (residue : List Char),
      delims.length = [(⟨['1'], [], 2, Json.str ("\x7b\x7d").toList⟩ : Frame)].length ∧
      ("1:\x7b\x7d,").toList =
        (List.zipWith frameRegion [⟨['1'], [], 2, Json.str ("\x7b\x7d").toList⟩]
          delims).flatten ++ residue ∧
      decodeStep residue = StepOut.stop :=
  c5_amended_partition 2 (("1:\x7b\x7d,").toList)
    [⟨['1'], [], 2, Json.str ("\x7b\x7d").toList⟩] (by rfl)
    (by
      intro f hf
      rw [List.mem_singleton] at hf
      subst hf
      decide)

/-- Witness for `c4_probe_policy`: on `"0:T3,xy:"` the declared length 3 is
kept after the probe fails; on `"1:zzz"` no length is declared, the probe
fails, and the decode aborts. -/
theorem c4_probe_policy_witness :
    (∃ rest, decodeStep (("0:T3,xy:").toList) = StepOut.frame
      ⟨get_next_hex_string (("0:T3,xy:").toList), framerTag (("0:T3,xy:").toList),
       (get_obj_length (framerBody (("0:T3,xy:").toList))).getD 3,
       Json.str ((framerBody (("0:T3,xy:").toList)).take
         ((get_obj_length (framerBody (("0:T3,xy:").toList))).getD 3))⟩ rest) ∧
    decodeLoop 1 (("1:zzz").toList) = Except.error () :=
  ⟨(c4_probe_policy (("0:T3,xy:").toList) 0 (by decide)).1 3 (by decide),
   ((c4_probe_policy (("1:zzz").toList) 0 (by decide)).2 (by decide)).2 (by decide)⟩

/-- C6: the lenient JSON probe is anchored at the first non-whitespace
character and fails exactly when the value scanner fails there; a
successful probe never consumes more characters than the buffer holds, and
iterated probing (dropping each consumed prefix) never re-consumes bytes:
the consumed lengths sum to at most the buffer length.  On a chain of
independent complete JSON values separated by whitespace the probe
consumes, step by step, exactly one value together with its trailing
whitespace — ignoring all the content after it — so the consumed lengths
are link by link `value length + separator length` and sum to the total
chain length. -/
theorem c6_probe_chain (l : List (List Char × List Char))
    (hv : ∀ p ∈ l, jsonValueExact p.1 ∧ p.2.all isJsonWs = true)
    (hsep : sepOk l = true) :
    (∀ s n, get_obj_length s = some n → n ≤ s.length) ∧
    (∀ k s, (probeSteps k s).sum ≤ s.length) ∧
    (∀ s, get_obj_length s = none ↔ scanValueF (scanFuel s) (skipWs s) = none) ∧
    probeSteps l.length (chainJoin l) = l.map (fun p => p.1.length + p.2.length) ∧
    (probeSteps l.length (chainJoin l)).sum = (chainJoin l).length := by
  refine ⟨fun s n h => get_obj_length_le h, fun k s => probeSteps_sum_le k s,
    get_obj_length_none_iff, probe_chain l hv hsep, ?_⟩
  rw [probe_chain l hv hsep, chainJoin_length]

/-- Witness for `c6_probe_chain` on the chain `"1 {}"`: the two probe steps
consume 2 characters each (`"1 "` then `"{}"`), totalling the buffer. -/
theorem c6_probe_chain_witness :
    probeSteps c6ChainEx.length (chainJoin c6ChainEx) = [2, 2] ∧
    (probeSteps c6ChainEx.length (chainJoin c6ChainEx)).sum = (chainJoin c6ChainEx).length := by
  have h := c6_probe_chain c6ChainEx
    (by
      intro p hp
      rw [show c6ChainEx = [(['1'], [' ']), (['\x7b', '\x7d'], [])] from rfl] at hp
      rcases List.mem_cons.mp hp with rfl | hp2
      · exact ⟨⟨Json.num ['1'], rfl⟩, rfl⟩
      · rcases List.mem_cons.mp hp2 with rfl | hp3
        · exact ⟨⟨Json.obj [], rfl⟩, rfl⟩
        · cases hp3)
    rfl
  exact ⟨by rw [h.2.2.2.1]; rfl, h.2.2.2.2⟩

/-- Shape of `_get_script2_alt_index`'s non-raising runs: either no index
is returned and the entry list is handed back unchanged, or the returned
index points at an existing entry and the list differs from the input only
by that entry's `val` being overwritten. -/
theorem script2AltIndexAux_shape : ∀ (l : List Frame) (i : Nat) (r : Option Nat × List Frame),
    script2AltIndexAux i l = .ok r →
    (r.1 = none ∧ r.2 = l) ∨
    (∃ k f inner, r.1 = some (i + k) ∧ l.get? k = some f ∧
      r.2 = l.set k { f with val := inner }) := by
  intro l
  induction l with
  | nil =>
    intro i r h
    rw [script2AltIndexAux] at h
    cases h
    left
    exact ⟨rfl, rfl⟩
  | cons f rest ih =>
    intro i r h
    rw [script2AltIndexAux] at h
    cases hfv : f.val with
    | null => rw [hfv] at h; cases h
    | bool b => rw [hfv] at h; cases h
    | num a => rw [hfv] at h; cases h
    | arr a => rw [hfv] at h; cases h
    | obj a => rw [hfv] at h; cases h
    | str s =>
      simp only [hfv] at h
      cases hfs : findSubstr wrapMarker s with
      | none =>
        rw [hfs] at h
        cases hrec : script2AltIndexAux (i + 1) rest with
        | error e => rw [hrec] at h; cases h
        | ok q =>
          rw [hrec] at h
          replace h : (Except.ok (q.1, f :: q.2) :
            Except Unit (Option Nat × List Frame)) = .ok r := h
          cases h
          rcases ih (i + 1) q hrec with ⟨h1, h2⟩ | ⟨k, f2, inner, h1, h2, h3⟩
          · left
            refine ⟨h1, ?_⟩
            show f :: q.2 = f :: rest
            rw [h2]
          · right
            refine ⟨k + 1, f2, inner, ?_, h2, ?_⟩
            · show q.1 = some (i + (k + 1))
              rw [h1]
              congr 1
              omega
            · show f :: q.2 = f :: rest.set k { f2 with val := inner }
              rw [h3]
      | some idx =>
        simp only [hfs] at h
        by_cases hocc : occursIn escCtxMarker (s.drop idx) = true
        · rw [if_pos hocc] at h
          cases hparse : (json_loads_lenient (s.drop idx)).bind
              (fun j => (getItem j ("dangerouslySetInnerHTML").toList).bind
                (fun d => getItem d ("__html").toList)) with
          | some inner =>
            rw [hparse] at h
            replace h : (Except.ok (some i, { f with val := inner } :: rest) :
              Except Unit (Option Nat × List Frame)) = .ok r := h
            cases h
            right
            refine ⟨0, f, inner, ?_, rfl, rfl⟩
            show some i = some (i + 0)
            rw [Nat.add_zero]
          | none =>
            rw [hparse] at h
            cases hrec : script2AltIndexAux (i + 1) rest with
            | error e => rw [hrec] at h; cases h
            | ok q =>
              rw [hrec] at h
              replace h : (Except.ok (q.1, f :: q.2) :
                Except Unit (Option Nat × List Frame)) = .ok r := h
              cases h
              rcases ih (i + 1) q hrec with ⟨h1, h2⟩ | ⟨k, f2, inner2, h1, h2, h3⟩
              · left
                refine ⟨h1, ?_⟩
                show f :: q.2 = f :: rest
                rw [h2]
              · right
                refine ⟨k + 1, f2, inner2, ?_, h2, ?_⟩
                · show q.1 = some (i + (k + 1))
                  rw [h1]
                  congr 1
                  omega
                · show f :: q.2 = f :: rest.set k { f2 with val := inner2 }
                  rw [h3]
        · rw [if_neg hocc] at h
          cases hrec : script2AltIndexAux (i + 1) rest with
          | error e => rw [hrec] at h; cases h
          | ok q =>
            rw [hrec] at h
            replace h : (Except.ok (q.1, f :: q.2) :
              Except Unit (Option Nat × List Frame)) = .ok r := h
            cases h
            rcases ih (i + 1) q hrec with ⟨h1, h2⟩ | ⟨k, f2, inner2, h1, h2, h3⟩
            · left
              refine ⟨h1, ?_⟩
              show f :: q.2 = f :: rest
              rw [h2]
            · right
              refine ⟨k + 1, f2, inner2, ?_, h2, ?_⟩
              · show q.1 = some (i + (k + 1))
                rw [h1]
                congr 1
                omega
              · show f :: q.2 = f :: rest.set k { f2 with val := inner2 }
                rw [h3]

/-- C7: the two lookups of the field extractor are independent and each
tolerates the other's absence.  A frame list with a profile frame (id
exactly `"4"`, value parsing to a record whose `[3]["pro"]` carries a
truthy `facebookUrl` and truthy `teamMembers`) but no site-metadata frame
(both metadata searches miss) extracts exactly `facebookUrl` and
`teamMembers`, with `url` absent; a frame list with a site-metadata frame
(value starting with the context marker and parsing to a dict with a
truthy `url`) but no profile frame extracts exactly `url`, with
the profile-derived fields absent.  Neither direction fails. -/
theorem c7_lookup_independence :
    (∀ {es : List Frame} {i4 : Nat} {f4 : Frame} {s4 : List Char} {j4 : Json}
      {d pd : List (List Char × Json)} {fb tm : Json} {elems : List Json}
      {td : List (Json × Json)},
      script2Index es = none →
      script2AltIndex es = Except.ok (none, es) →
      script4Index es = some i4 →
      es.get? i4 = some f4 →
      f4.val = Json.str s4 →
      json_loads s4 = some j4 →
      index3 j4 = some (Json.obj d) →
      (dictGet d (("pro").toList)).getD (Json.obj []) = Json.obj pd →
      dictGet pd (("facebookUrl").toList) = some fb →
      jsonTruthy fb = true →
      dictGet pd (("instagramUrl").toList) = none →
      dictGet pd (("teamMembers").toList) = some tm →
      jsonTruthy tm = true →
      teamElems tm = Except.ok elems →
      teamFold elems [] = Except.ok td →
      extract_data_from_scripts es =
        ([(("facebookUrl").toList, OutVal.j fb),
          (("teamMembers").toList, OutVal.tdict td)], es)) ∧
    (∀ {es : List Frame} {idx : Nat} {f : Frame} {s : List Char}
      {d : List (List Char × Json)} {u : Json},
      script4Index es = none →
      script2Index es = some idx →
      es.get? idx = some f →
      f.val = Json.str s →
      json_loads s = some (Json.obj d) →
      dictGet d (("url").toList) = some u →
      jsonTruthy u = true →
      extract_data_from_scripts es = ([(("url").toList, OutVal.j u)], es)) := by
  constructor
  · intro es i4 f4 s4 j4 d pd fb tm elems td h2 hAlt h4 hget hfv hloads hidx3 hpro
      hfb hfbT hins htm htmT helems hfold
    have hub : extractUrlBlock es [] = ([], es) := by
      rw [extractUrlBlock]
      simp only [h2, hAlt]
    have hpb : extractProfileBlock es [] =
        [(("facebookUrl").toList, OutVal.j fb),
         (("teamMembers").toList, OutVal.tdict td)] := by
      rw [extractProfileBlock]
      simp only [h4, hget, hfv, hloads, hidx3, hpro, List.foldl_cons, List.foldl_nil,
        hfb, hins]
      rw [if_pos hfbT]
      simp only [htm]
      rw [if_pos htmT]
      simp only [helems, hfold]
      rfl
    rw [extract_data_from_scripts]
    simp only [hub]
    rw [hpb]
  · intro es idx f s d u h4 h2 hget hfv hloads hu huT
    have hub : extractUrlBlock es [] = ([(("url").toList, OutVal.j u)], es) := by
      rw [extractUrlBlock]
      simp only [h2]
      rw [tryUrlFrom]
      simp only [hget, hfv, hloads, hu]
      rw [if_pos huT]
      rfl
    have hpb : extractProfileBlock es [(("url").toList, OutVal.j u)] =
        [(("url").toList, OutVal.j u)] := by
      rw [extractProfileBlock]
      simp only [h4]
    rw [extract_data_from_scripts]
    simp only [hub]
    rw [hpb]

/-- Witness for `c7_lookup_independence`: a lone profile frame extracts
exactly `facebookUrl` and `teamMembers`; a lone site-metadata frame
extracts exactly `url`. -/
theorem c7_lookup_independence_witness :
    extract_data_from_scripts [c7ProFrame] =
      ([(("facebookUrl").toList, OutVal.j (Json.str (("f").toList))),
        (("teamMembers").toList,
         OutVal.tdict [(Json.str (("A").toList), Json.str (("B").toList))])],
       [c7ProFrame]) ∧
    extract_data_from_scripts [c7MetaFrame] =
      ([(("url").toList, OutVal.j (Json.str (("https://u.example").toList)))],
       [c7MetaFrame]) :=
  ⟨c7_lookup_independence.1 rfl rfl rfl rfl rfl rfl rfl rfl rfl rfl rfl rfl rfl rfl rfl,
   c7_lookup_independence.2 rfl rfl rfl rfl rfl rfl rfl⟩

/-- C9: the field extractor mutates the decoded state in at most one
place.  For every frame list, the entry list it leaves behind is either
identical to the input, or differs in exactly one frame — one that exists
in the input — whose `val` alone is overwritten (id, type tag and declared
length are preserved by the single-field update), and that happens exactly
on the wrapper path: the direct site-metadata search missed and the
alternative search resolved at that frame. -/
theorem c9_mutation_locality (es : List Frame) :
    (extract_data_from_scripts es).2 = es ∨
    ∃ i f inner, es.get? i = some f ∧
      (extract_data_from_scripts es).2 = es.set i { f with val := inner } ∧
      script2Index es = none ∧
      script2AltIndex es = .ok (some i, (extract_data_from_scripts es).2) := by
  cases h2 : script2Index es with
  | some idx =>
    left
    have hub : extractUrlBlock es [] = (tryUrlFrom es idx [], es) := by
      rw [extractUrlBlock]
      simp only [h2]
    rw [extract_data_from_scripts]
    simp only [hub]
  | none =>
    cases hAlt : script2AltIndex es with
    | error e =>
      left
      have hub : extractUrlBlock es [] = ([], es) := by
        rw [extractUrlBlock]
        simp only [h2, hAlt]
      rw [extract_data_from_scripts]
      simp only [hub]
    | ok q =>
      obtain ⟨oi, scripts2⟩ := q
      have hshape := script2AltIndexAux_shape es 0 (oi, scripts2) hAlt
      cases oi with
      | none =>
        left
        rcases hshape with ⟨h1, hsame⟩ | ⟨k, f, inner, h1, _, _⟩
        · have hub : extractUrlBlock es [] = ([], scripts2) := by
            rw [extractUrlBlock]
            simp only [h2, hAlt]
          rw [extract_data_from_scripts]
          simp only [hub]
          exact hsame
        · cases h1
      | some j =>
        rcases hshape with ⟨h1, _⟩ | ⟨k, f, inner, h1, hget, hset⟩
        · cases h1
        · right
          replace h1 : some j = some (0 + k) := h1
          injection h1 with h1
          rw [Nat.zero_add] at h1
          subst h1
          have hub : extractUrlBlock es [] = (tryUrlFrom scripts2 j [], scripts2) := by
            rw [extractUrlBlock]
            simp only [h2, hAlt]
          have hsec : (extract_data_from_scripts es).2 = scripts2 := by
            rw [extract_data_from_scripts]
            simp only [hub]
          refine ⟨j, f, inner, hget, ?_, rfl, ?_⟩
          · rw [hsec]
            exact hset
          · rw [hsec]

end PartySlate
